import Mathlib

/-!
# Message handler of the NES416 calculator server

A shallow embedding of `Assignment-2/server/message_handler.h`:
`decode_operation`, `handle_msg` and `handle_gpa`.

Conventions of the embedding

* a buffer `char msg[]` is a `List Char`; reading `msg[i]` outside the buffer
  has no defined value in C, so a run that does it yields `none`;
* a C `int` is an `Int` kept in the 32-bit range by `wrap32` after every
  addition, subtraction and multiplication (two's complement wraparound);
  `/` and `%` are the truncating `Int.tdiv` and `Int.tmod`;
* the caller's `float *result` cell is passed in and handed back: a run
  returns the pair (returned status, final content of `*result`).  The content
  is the rational number the stored `float` denotes: an `int` assigned to the
  cell goes through `intToFloat`, the division of `handle_gpa` through
  `floatDiv`, both rounding to binary32.
-/

namespace MessageHandler

/-! ## Constants -/

def ERR : Int := 0
def ADD : Int := 1
def MINUS : Int := 2
def MUL : Int := 3
def DIV : Int := 4
def GPA : Int := 5
def EXIT : Int := 6

/-- Two's complement wraparound of an exact integer to a 32-bit `int`. -/
def wrap32 (n : Int) : Int := (n + 2147483648) % 4294967296 - 2147483648

/-- The test `temp >= '0' && temp <= '9'`. -/
def isDigit (c : Char) : Prop := '0' ≤ c ∧ c ≤ '9'

instance (c : Char) : Decidable (isDigit c) := by
  unfold isDigit; infer_instance

/-- The expression `(int)temp - 48`. -/
def digitVal (c : Char) : Int := (c.toNat : Int) - 48

/-! ## The `float` cell

`*result` is a `float` (IEEE 754 binary32: a significand of 24 bits, rounding
to nearest, ties to even).  The code produces its values in two ways only: the
conversion of an `int` (`*result = res`, `(float)res`, the promotion of
`commas+1`) and one division of two such converted values.  Every value that
can arise has a magnitude between `2^-31` and `2^31`, inside the normal range,
so neither the exponent limits nor subnormals are modelled.  A float value is
kept as the rational number it denotes. -/

/-- The integer nearest to `a / b`, ties to the even one (`b > 0`). -/
def roundHalfEven (a b : Nat) : Nat :=
  let q := a / b
  let r := a % b
  if 2 * r < b then q
  else if b < 2 * r then q + 1
  else if q % 2 = 0 then q
  else q + 1

/-- Number of halvings that bring `n` below 2, with at most `fuel` of them. -/
def log2Aux : Nat → Nat → Nat
  | 0, _ => 0
  | fuel + 1, n => if n < 2 then 0 else log2Aux fuel (n / 2) + 1

/-- The position of the leading bit of `n`: `2^(ilog2 n) ≤ n < 2^(ilog2 n + 1)`
for `n ≥ 1`. -/
def ilog2 (n : Nat) : Nat := log2Aux n n

/-- The value of `(float)n` for an `int n`: `|n|` keeps its 24 leading bits,
the `ilog2 |n| - 23` bits below them are rounded away. -/
def intToFloat (n : Int) : Int :=
  let a := n.natAbs
  let s := ilog2 a - 23
  let m := roundHalfEven a (2 ^ s) * 2 ^ s
  if n < 0 then -(m : Int) else (m : Int)

/-- The exponent of the positive rational `a / b`: the `e` with
`2^e ≤ a / b < 2^(e+1)`. -/
def floorLog2 (a b : Nat) : Int :=
  let d : Int := (ilog2 a : Int) - (ilog2 b : Int)
  if a * 2 ^ ilog2 b < b * 2 ^ ilog2 a then d - 1 else d

/-- The binary32 value nearest to the positive rational `a / b` as a
significand `N` and a scale `k`: the value is `N / 2^k`, with
`N = round (a / b * 2^k)` between `2^23` and `2^24`. -/
def roundSignificand (a b : Nat) : Nat × Int :=
  let k : Int := 23 - floorLog2 a b
  if 0 ≤ k then (roundHalfEven (a * 2 ^ k.toNat) b, k)
  else (roundHalfEven a (b * 2 ^ (-k).toNat), k)

/-- The rational `N / 2^k`. -/
def scaled (p : Nat × Int) : ℚ :=
  if 0 ≤ p.2 then (p.1 : ℚ) / 2 ^ p.2.toNat else (p.1 : ℚ) * 2 ^ (-p.2).toNat

/-- The float division `x / y` of two floats with integer values `x` and
`y ≠ 0`: the exact quotient rounded to binary32. -/
def floatDiv (x y : Int) : ℚ :=
  if x = 0 then 0
  else if (x < 0 ∧ 0 < y) ∨ (0 < x ∧ y < 0) then - scaled (roundSignificand x.natAbs y.natAbs)
  else scaled (roundSignificand x.natAbs y.natAbs)

/-! ## `decode_operation` -/

/-- The `switch` of `decode_operation`. -/
def decode_operation (op : Char) : Int :=
  if op = '+' then ADD
  else if op = '-' then MINUS
  else if op = '*' then MUL
  else if op = '/' then DIV
  else ERR

/-! ## `handle_msg` -/

/-- How one pass through a loop body ends: `next s` falls through to `i++`
with the locals `s`, `ret code` is the statement `return code`. -/
inductive Flow (σ : Type) where
  | next (s : σ)
  | ret (code : Int)
deriving DecidableEq, Repr

/-- The locals of `handle_msg` that live across loop iterations. -/
structure ExprState where
  x : Int
  y : Int
  op : Int
  a : Nat
deriving DecidableEq, Repr

/-- The locals as initialised on entry: `x = 0, y = 0, op = ERR, a = 0`. -/
def ExprState.init : ExprState := ⟨0, 0, ERR, 0⟩

/-- The two statements `*(var1(a,&x,&y)) += (int)temp - 48; *(var1(a,&x,&y)) *= 10;`. -/
def pushDigit (v : Int) (temp : Char) : Int := wrap32 (wrap32 (v + digitVal temp) * 10)

/-- One pass through the body of the `for` loop of `handle_msg` at index `i`
with `temp = msg[i]`. -/
def handle_msg_step (len : Int) (choice : Int) (i : Nat) (temp : Char) (s : ExprState) :
    Flow ExprState :=
  if temp = ' ' then .next s
  else if isDigit temp then
    if s.a = 0 then .next { s with x := pushDigit s.x temp }
    else .next { s with y := pushDigit s.y temp }
  else
    let a := (s.a + 1) % 256
    if a > 1 then .ret (-1)
    else if (i : Int) = len - 1 ∨ i = 0 then .ret (-1)
    else
      let op := decode_operation temp
      if op = ERR ∨ op ≠ choice then .ret (-4)
      else .next { s with op := op, a := a }

/-- The `for (int i = 0; i < len; i++)` loop of `handle_msg`, with `n`
iterations still to run from index `i`. -/
def handle_msg_loop (msg : List Char) (len : Int) (choice : Int) :
    Nat → Nat → ExprState → Option (Flow ExprState)
  | 0, _, s => some (.next s)
  | n + 1, i, s =>
    match msg[i]? with
    | none => none
    | some temp =>
      match handle_msg_step len choice i temp s with
      | .ret code => some (.ret code)
      | .next s1 => handle_msg_loop msg len choice n (i + 1) s1

/-- The code after the loop of `handle_msg`: `x /= 10; y /= 10;` and the
`switch (op)`.  Returns the status and the content of `*result`; the
assignment `*result = res` converts the `int` to `float`. -/
def handle_msg_eval (s : ExprState) (result : ℚ) : Int × ℚ :=
  let x := Int.tdiv s.x 10
  let y := Int.tdiv s.y 10
  if s.op = ADD then (0, ((intToFloat (wrap32 (x + y)) : Int) : ℚ))
  else if s.op = MINUS then (0, ((intToFloat (wrap32 (x - y)) : Int) : ℚ))
  else if s.op = MUL then (0, ((intToFloat (wrap32 (x * y)) : Int) : ℚ))
  else if s.op = DIV then
    if y = 0 then (-3, result) else (0, ((intToFloat (Int.tdiv x y) : Int) : ℚ))
  else (-1, result)

/-- The function `handle_msg(msg, len, result, choice)`: the returned status
and the final content of `*result`, where `result` is its content on entry. -/
def handle_msg (msg : List Char) (len : Int) (result : ℚ) (choice : Int) : Option (Int × ℚ) :=
  match handle_msg_loop msg len choice len.toNat 0 ExprState.init with
  | none => none
  | some (.ret code) => some (code, result)
  | some (.next s) => some (handle_msg_eval s result)

/-! ## `handle_gpa` -/

/-- The locals of `handle_gpa` that live across loop iterations. -/
structure GpaState where
  m : Int
  h : Int
  full_mark : Int
  commas : Int
  res : Int
deriving DecidableEq, Repr

/-- The locals as initialised on entry (all zero). -/
def GpaState.init : GpaState := ⟨0, 0, 0, 0, 0⟩

/-- The digit branch: `var2(commas,&m,&h)` selects `m` when `commas % 2 == 0`
and `h` otherwise. -/
def gpaDigit (s : GpaState) (c : Char) : GpaState :=
  if Int.tmod s.commas 2 = 0 then { s with m := pushDigit s.m c }
  else { s with h := pushDigit s.h c }

/-- The comma branch: on an odd `commas` the pair is closed (`m /= 10; h /= 10;
v = m * h; res += v; full_mark += 100 * h;` then `m = 0; h = 0`), and in
every case `commas++`. -/
def gpaComma (s : GpaState) : GpaState :=
  let s1 : GpaState :=
    if Int.tmod s.commas 2 ≠ 0 then
      let m := Int.tdiv s.m 10
      let h := Int.tdiv s.h 10
      { s with res := wrap32 (s.res + wrap32 (m * h)),
               full_mark := wrap32 (s.full_mark + wrap32 (100 * h)),
               m := 0, h := 0 }
    else s
  { s1 with commas := wrap32 (s1.commas + 1) }

/-- The `for (int i = 0; i < length-1; i++)` loop of `handle_gpa`, with `n`
iterations still to run from index `i`.  Returns `rv` and the locals at the
exit of the loop. -/
def handle_gpa_loop (msg : List Char) : Nat → Nat → GpaState → Option (Int × GpaState)
  | 0, _, s => some (0, s)
  | n + 1, i, s =>
    match msg[i]? with
    | none => none
    | some c =>
      if c = ' ' then handle_gpa_loop msg n (i + 1) s
      else if isDigit c then handle_gpa_loop msg n (i + 1) (gpaDigit s c)
      else if c = ',' then handle_gpa_loop msg n (i + 1) (gpaComma s)
      else if c = '-' then
        match msg[i + 1]? with
        | none => none
        | some d => if d = '1' then some (0, s) else some (-5, s)
      else some (-5, s)

/-- The function `handle_gpa(msg, result, length)`: the returned status and
the final content of `*result`, the float division `(float)res / (commas+1)`
(both operands converted to `float`), written on every path.  A zero divisor
has no rational value and yields `none`. -/
def handle_gpa (msg : List Char) (_result : ℚ) (length : Int) : Option (Int × ℚ) :=
  match handle_gpa_loop msg (length - 1).toNat 0 GpaState.init with
  | none => none
  | some (rv, s) =>
    if wrap32 (s.commas + 1) = 0 then none
    else some (rv, floatDiv (intToFloat s.res) (intToFloat (wrap32 (s.commas + 1))))

/-! ## Auxiliary definitions for the proofs -/

/-- A character that is neither a space nor a digit: the `else` branch of the
loop body of `handle_msg`. -/
def isBoundary (c : Char) : Prop := c ≠ ' ' ∧ ¬ isDigit c

instance (c : Char) : Decidable (isBoundary c) := by
  unfold isBoundary; infer_instance

/-- The loop of `handle_msg` run over the characters `cs` that the buffer
holds from index `i` on. -/
def scanFrom (len choice : Int) : Nat → List Char → ExprState → Flow ExprState
  | _, [], s => .next s
  | i, c :: cs, s =>
    match handle_msg_step len choice i c s with
    | .ret code => .ret code
    | .next s1 => scanFrom len choice (i + 1) cs s1

/-- What the loop of `handle_msg` makes of an accumulator over a run of
digits and spaces. -/
def accRun (v : Int) : List Char → Int
  | [] => v
  | c :: cs => if c = ' ' then accRun v cs else accRun (pushDigit v c) cs

/-- Decimal value of a digit string read after the value `p`. -/
def decFrom (p : Nat) : List Char → Nat
  | [] => p
  | c :: cs => decFrom (10 * p + (c.toNat - 48)) cs

/-- Decimal value of a digit string. -/
def decVal (ds : List Char) : Nat := decFrom 0 ds

/-- The request text `"<A> <op> <B>"`: two operand strings around an operator
character, separated by single spaces. -/
def exprMsg (A : List Char) (op : Char) (B : List Char) : List Char :=
  A ++ [' ', op, ' '] ++ B

/-- The integer a request `a op b` stands for: sum, difference, product or
truncated quotient. -/
def exactResult (op : Char) (a b : Nat) : Int :=
  if op = '+' then (a : Int) + b
  else if op = '-' then (a : Int) - b
  else if op = '*' then (a : Int) * b
  else ((a / b : Nat) : Int)

/-- The first character of a text that is not a space, if any. -/
def firstNonSpace (msg : List Char) : Option Char := msg.find? (fun c => decide (c ≠ ' '))

/-- The last character of a text that is not a space, if any. -/
def lastNonSpace (msg : List Char) : Option Char := firstNonSpace msg.reverse

/-- A character the loop of `handle_gpa` rejects wherever it scans it: not a
digit, not a comma, not a space and not a `-`. -/
def isIllegal (c : Char) : Prop := ¬ isDigit c ∧ c ≠ ',' ∧ c ≠ ' ' ∧ c ≠ '-'

instance (c : Char) : Decidable (isIllegal c) := by
  unfold isIllegal; infer_instance

/-- The terminator `-1` stands at index `t` of the buffer. -/
def terminatorAt (msg : List Char) (t : Nat) : Prop :=
  msg[t]? = some '-' ∧ msg[t + 1]? = some '1'

instance (msg : List Char) (t : Nat) : Decidable (terminatorAt msg t) := by
  unfold terminatorAt; infer_instance

/-- What the loop of `handle_gpa` makes of its locals over a run of spaces,
digits and commas (the three branches that fall through to `i++`). -/
def gpaFeed (s : GpaState) : List Char → GpaState
  | [] => s
  | c :: cs =>
    if c = ' ' then gpaFeed s cs
    else if isDigit c then gpaFeed (gpaDigit s c) cs
    else gpaFeed (gpaComma s) cs

/-- A character of the roster body: a space, a digit or a comma. -/
def isBody (c : Char) : Prop := c = ' ' ∨ isDigit c ∨ c = ','

instance (c : Char) : Decidable (isBody c) := by
  unfold isBody; infer_instance

/-- The roster text `"m_1,h_1,...,m_n,h_n,"` of a list of (mark, hours) pairs,
every field in decimal and followed by a comma. -/
def rosterBody (pairs : List (Nat × Nat)) : List Char :=
  pairs.flatMap (fun p => (Nat.repr p.1).toList ++ [','] ++ (Nat.repr p.2).toList ++ [','])

/-- The roster message `"m_1,h_1,...,m_n,h_n,-1"`. -/
def rosterMsg (pairs : List (Nat × Nat)) : List Char := rosterBody pairs ++ ['-', '1']

/-- The weighted sum `m_1*h_1 + ... + m_n*h_n`. -/
def weightedSum (pairs : List (Nat × Nat)) : Nat := (pairs.map (fun p => p.1 * p.2)).sum

/-- A message with all its space characters removed. -/
def stripSpaces (msg : List Char) : List Char := msg.filter (fun c => decide (c ≠ ' '))

/-- The digits of a run of digits and spaces. -/
def digitsOf (l : List Char) : List Char := l.filter (fun c => decide (isDigit c))

/-- The decimal value of the digits found in a run of digits and spaces (0 when
there is none). -/
def operandValue (l : List Char) : Nat := decVal (digitsOf l)

/-! ## Lemmas on the `float` cell -/

theorem log2Aux_le (fuel : Nat) : ∀ (n k : Nat), n < 2 ^ (k + 1) → log2Aux fuel n ≤ k := by
  induction fuel with
  | zero => intro n k _; simp [log2Aux]
  | succ f ih =>
    intro n k h
    rw [log2Aux]
    split_ifs with h2
    · exact Nat.zero_le _
    · cases k with
      | zero => simp at h; omega
      | succ k =>
        have : n / 2 < 2 ^ (k + 1) := by
          rw [pow_succ] at h; omega
        have := ih (n / 2) k this
        omega

theorem roundHalfEven_one (a : Nat) : roundHalfEven a 1 = a := by
  have h : a % 1 = 0 := Nat.mod_one a
  simp [roundHalfEven, h]

/-- An `int` of magnitude at most `2^24` converts to `float` exactly. -/
theorem intToFloat_small (n : Int) (h1 : -16777216 ≤ n) (h2 : n ≤ 16777216) :
    intToFloat n = n := by
  by_cases hlt : n.natAbs < 16777216
  · have hs : ilog2 n.natAbs - 23 = 0 := by
      have := log2Aux_le n.natAbs n.natAbs 23 (by norm_num; exact hlt)
      unfold ilog2; omega
    unfold intToFloat
    simp only [hs, pow_zero, roundHalfEven_one, mul_one]
    split_ifs <;> omega
  · have hn : n = 16777216 ∨ n = -16777216 := by omega
    rcases hn with rfl | rfl <;> decide

theorem floatDiv_pos (x y : Int) (N k : Nat) (hx : 0 < x) (hy : 0 < y)
    (h : roundSignificand x.natAbs y.natAbs = (N, (k : Int))) :
    floatDiv x y = (N : ℚ) / 2 ^ k := by
  unfold floatDiv
  rw [if_neg (ne_of_gt hx), if_neg (by omega), h]
  simp [scaled]

theorem floatDiv_zero (y : Int) : floatDiv 0 y = 0 := by
  simp [floatDiv]

/-! ## Lemmas on the scan of `handle_msg` -/

theorem wrap32_id (n : Int) (h1 : -2147483648 ≤ n) (h2 : n < 2147483648) : wrap32 n = n := by
  unfold wrap32; omega

theorem handle_msg_loop_scanFrom (len choice : Int) (rest : List Char) :
    ∀ (pre : List Char) (s : ExprState),
      handle_msg_loop (pre ++ rest) len choice rest.length pre.length s
        = some (scanFrom len choice pre.length rest s) := by
  induction rest with
  | nil => intro pre s; simp [handle_msg_loop, scanFrom]
  | cons c cs ih =>
    intro pre s
    have hget : (pre ++ c :: cs)[pre.length]? = some c := by
      rw [List.getElem?_append_right (le_refl _)]; simp
    simp only [List.length_cons, handle_msg_loop, hget, scanFrom]
    cases hstep : handle_msg_step len choice pre.length c s with
    | ret code => rfl
    | next s1 =>
      have := ih (pre ++ [c]) s1
      simpa using this

theorem handle_msg_exact (msg : List Char) (r : ℚ) (choice : Int) :
    handle_msg msg msg.length r choice =
      match scanFrom msg.length choice 0 msg ExprState.init with
      | .ret code => some (code, r)
      | .next s => some (handle_msg_eval s r) := by
  have h := handle_msg_loop_scanFrom (msg.length : Int) choice msg [] ExprState.init
  simp only [List.nil_append, List.length_nil] at h
  simp only [handle_msg, Int.toNat_ofNat, h]
  cases scanFrom (msg.length : Int) choice 0 msg ExprState.init <;> rfl

theorem scanFrom_append (len choice : Int) (l1 l2 : List Char) :
    ∀ (i : Nat) (s : ExprState),
      scanFrom len choice i (l1 ++ l2) s =
        match scanFrom len choice i l1 s with
        | .ret code => .ret code
        | .next s1 => scanFrom len choice (i + l1.length) l2 s1 := by
  induction l1 with
  | nil => intro i s; simp [scanFrom]
  | cons c cs ih =>
    intro i s
    rw [show (c :: cs) ++ l2 = c :: (cs ++ l2) from rfl]
    simp only [scanFrom, List.length_cons]
    cases hstep : handle_msg_step len choice i c s with
    | ret code => rfl
    | next s1 =>
      have h1 : i + 1 + cs.length = i + (cs.length + 1) := by omega
      simp only [ih (i + 1) s1, h1]

/-- Over a run of spaces and digits the loop never returns; it only feeds the
accumulator selected by `a`. -/
theorem scanFrom_run (len choice : Int) (l : List Char) (hl : ∀ c ∈ l, ¬ isBoundary c) :
    ∀ (i : Nat) (s : ExprState),
      scanFrom len choice i l s =
        .next (if s.a = 0 then { s with x := accRun s.x l } else { s with y := accRun s.y l }) := by
  induction l with
  | nil => intro i s; simp [scanFrom, accRun]
  | cons c cs ih =>
    intro i s
    have hc : ¬ isBoundary c := hl c (List.mem_cons_self _ _)
    have hcs : ∀ d ∈ cs, ¬ isBoundary d := fun d hd => hl d (List.mem_cons_of_mem _ hd)
    by_cases hsp : c = ' '
    · simp [scanFrom, handle_msg_step, hsp, accRun, ih hcs]
    · have hd : isDigit c := by
        by_contra hnd; exact hc ⟨hsp, hnd⟩
      by_cases ha : s.a = 0
      · simp [scanFrom, handle_msg_step, hsp, hd, ha, accRun, ih hcs]
      · simp [scanFrom, handle_msg_step, hsp, hd, ha, accRun, ih hcs]

theorem isDigit_iff (c : Char) : isDigit c ↔ 48 ≤ c.toNat ∧ c.toNat ≤ 57 := Iff.rfl

theorem not_isBoundary_of_isDigit {c : Char} (h : isDigit c) : ¬ isBoundary c :=
  fun hb => hb.2 h

theorem isDigit_ne_space {c : Char} (h : isDigit c) : c ≠ ' ' := by
  rintro rfl
  exact absurd h (by decide)

theorem decFrom_nil (p : Nat) : decFrom p [] = p := rfl

theorem decFrom_cons (p : Nat) (c : Char) (cs : List Char) :
    decFrom p (c :: cs) = decFrom (10 * p + (c.toNat - 48)) cs := rfl

theorem le_decFrom (ds : List Char) : ∀ p : Nat, p ≤ decFrom p ds := by
  induction ds with
  | nil => intro p; exact le_refl _
  | cons c cs ih =>
    intro p
    have h := ih (10 * p + (c.toNat - 48))
    rw [decFrom_cons]
    generalize decFrom (10 * p + (c.toNat - 48)) cs = z at h
    generalize c.toNat - 48 = w at h
    omega

/-- Below the overflow threshold the accumulator of the loop holds ten times
the decimal value read so far. -/
theorem accRun_digits (ds : List Char) (hds : ∀ c ∈ ds, isDigit c) :
    ∀ p : Nat, decFrom p ds ≤ 214748364 →
      accRun (10 * (p : Int)) ds = 10 * (decFrom p ds : Int) := by
  induction ds with
  | nil => intro p _; rfl
  | cons c cs ih =>
    intro p hp
    have hc : isDigit c := hds c (List.mem_cons_self _ _)
    have hcs : ∀ d ∈ cs, isDigit d := fun d hd => hds d (List.mem_cons_of_mem _ hd)
    have hsp : c ≠ ' ' := isDigit_ne_space hc
    rw [decFrom_cons] at hp
    have hle := le_decFrom cs (10 * p + (c.toNat - 48))
    rw [isDigit_iff] at hc
    have hpush : pushDigit (10 * (p : Int)) c = 10 * ((10 * p + (c.toNat - 48) : Nat) : Int) := by
      have h1 : wrap32 (10 * (p : Int) + ((c.toNat : Int) - 48))
          = 10 * (p : Int) + ((c.toNat : Int) - 48) := wrap32_id _ (by omega) (by omega)
      unfold pushDigit digitVal
      rw [h1, wrap32_id _ (by omega) (by omega)]
      omega
    rw [decFrom_cons]
    simp only [accRun, hsp, if_false, hpush]
    exact ih hcs _ hp

theorem digitChar_isDigit (k : Nat) (hk : k < 10) :
    isDigit (Nat.digitChar k) ∧ (Nat.digitChar k).toNat - 48 = k := by
  interval_cases k <;> decide

theorem toDigitsCore_isDigit (fuel : Nat) :
    ∀ (n : Nat) (ds : List Char), (∀ c ∈ ds, isDigit c) →
      ∀ c ∈ Nat.toDigitsCore 10 fuel n ds, isDigit c := by
  induction fuel with
  | zero => intro n ds hds; simpa [Nat.toDigitsCore] using hds
  | succ f ih =>
    intro n ds hds
    have hd : isDigit (Nat.digitChar (n % 10)) :=
      (digitChar_isDigit (n % 10) (Nat.mod_lt _ (by decide))).1
    have hcons : ∀ c ∈ Nat.digitChar (n % 10) :: ds, isDigit c := by
      intro c hc
      rcases List.mem_cons.1 hc with rfl | h
      · exact hd
      · exact hds c h
    simp only [Nat.toDigitsCore]
    split
    · exact hcons
    · exact ih _ _ hcons

theorem toDigitsCore_decFrom (fuel : Nat) :
    ∀ (n : Nat) (ds : List Char), n < fuel →
      decFrom 0 (Nat.toDigitsCore 10 fuel n ds) = decFrom n ds := by
  induction fuel with
  | zero => intro n ds h; omega
  | succ f ih =>
    intro n ds hn
    have hv : (Nat.digitChar (n % 10)).toNat - 48 = n % 10 :=
      (digitChar_isDigit (n % 10) (Nat.mod_lt _ (by decide))).2
    simp only [Nat.toDigitsCore]
    split
    · next h0 =>
      rw [decFrom_cons, hv]
      congr 1; omega
    · next h0 =>
      rw [ih _ _ (by omega), decFrom_cons, hv]
      congr 1; omega

theorem toDigits_isDigit (n : Nat) : ∀ c ∈ Nat.toDigits 10 n, isDigit c :=
  toDigitsCore_isDigit (n + 1) n [] (by simp)

theorem decVal_toDigits (n : Nat) : decVal (Nat.toDigits 10 n) = n := by
  unfold decVal Nat.toDigits
  rw [toDigitsCore_decFrom (n + 1) n [] (by omega)]; rfl

theorem repr_toList (n : Nat) : (Nat.repr n).toList = Nat.toDigits 10 n := rfl

theorem accRun_append (l1 l2 : List Char) : ∀ v : Int, accRun v (l1 ++ l2) = accRun (accRun v l1) l2 := by
  induction l1 with
  | nil => intro v; rfl
  | cons c cs ih =>
    intro v
    rw [show (c :: cs) ++ l2 = c :: (cs ++ l2) from rfl]
    by_cases hsp : c = ' '
    · simp only [accRun, hsp, if_true, ih]
    · simp only [accRun, hsp, if_false, ih]

/-- The step taken on a boundary character. -/
theorem handle_msg_step_boundary (len choice : Int) (i : Nat) (c : Char) (s : ExprState)
    (hc : isBoundary c) :
    handle_msg_step len choice i c s =
      if (s.a + 1) % 256 > 1 then .ret (-1)
      else if (i : Int) = len - 1 ∨ i = 0 then .ret (-1)
      else if decode_operation c = ERR ∨ decode_operation c ≠ choice then .ret (-4)
      else .next { s with op := decode_operation c, a := (s.a + 1) % 256 } := by
  simp only [handle_msg_step, hc.1, hc.2, if_false]

/-- A buffer with exactly one boundary character, at index `pre.length`. -/
theorem scanFrom_single (choice : Int) (pre post : List Char) (c : Char)
    (hpre : ∀ d ∈ pre, ¬ isBoundary d) (hpost : ∀ d ∈ post, ¬ isBoundary d)
    (hc : isBoundary c) :
    scanFrom ((pre ++ c :: post).length : Int) choice 0 (pre ++ c :: post) ExprState.init =
      if pre = [] ∨ post = [] then .ret (-1)
      else if decode_operation c = ERR ∨ decode_operation c ≠ choice then .ret (-4)
      else .next ⟨accRun 0 pre, accRun 0 post, decode_operation c, 1⟩ := by
  have hidx : ((pre.length : Int) = ((pre ++ c :: post).length : Int) - 1 ∨ pre.length = 0)
      ↔ (pre = [] ∨ post = []) := by
    simp only [List.length_append, List.length_cons, Nat.cast_add, Nat.cast_one,
      List.length_eq_zero]
    constructor
    · rintro (h | h)
      · right; apply List.length_eq_zero.1; omega
      · left; exact h
    · rintro (h | h)
      · right; exact h
      · left; subst h; simp
  generalize ((pre ++ c :: post).length : Int) = L at hidx ⊢
  rw [scanFrom_append, scanFrom_run _ _ pre hpre]
  simp only [ExprState.init, if_true, Nat.zero_add]
  rw [scanFrom, handle_msg_step_boundary _ _ _ _ _ hc]
  have ha : ¬ ((0 + 1) % 256 > 1) := by decide
  by_cases hpos : pre = [] ∨ post = []
  · rw [if_neg ha, if_pos (hidx.2 hpos), if_pos hpos]
  · rw [if_neg ha, if_neg (fun h => hpos (hidx.1 h)), if_neg hpos]
    by_cases hdec : decode_operation c = ERR ∨ decode_operation c ≠ choice
    · rw [if_pos hdec, if_pos hdec]
    · rw [if_neg hdec, if_neg hdec]
      simp only []
      rw [scanFrom_run _ _ post hpost]
      simp

theorem handle_msg_single (choice : Int) (r : ℚ) (pre post : List Char) (c : Char)
    (hpre : ∀ d ∈ pre, ¬ isBoundary d) (hpost : ∀ d ∈ post, ¬ isBoundary d)
    (hc : isBoundary c) :
    handle_msg (pre ++ c :: post) (pre ++ c :: post).length r choice =
      if pre = [] ∨ post = [] then some (-1, r)
      else if decode_operation c = ERR ∨ decode_operation c ≠ choice then some (-4, r)
      else some (handle_msg_eval ⟨accRun 0 pre, accRun 0 post, decode_operation c, 1⟩ r) := by
  rw [handle_msg_exact, scanFrom_single choice pre post c hpre hpost hc]
  split_ifs <;> rfl

theorem exprMsg_split (A B : List Char) (op : Char) :
    exprMsg A op B = (A ++ [' ']) ++ op :: (' ' :: B) := by
  simp [exprMsg]

theorem run_of_digits_space {A : List Char} (hA : ∀ c ∈ A, isDigit c) :
    ∀ d ∈ A ++ [' '], ¬ isBoundary d := by
  intro d hd
  rcases List.mem_append.1 hd with h | h
  · exact not_isBoundary_of_isDigit (hA d h)
  · rw [List.mem_singleton.1 h]; decide

theorem run_of_space_digits {B : List Char} (hB : ∀ c ∈ B, isDigit c) :
    ∀ d ∈ ' ' :: B, ¬ isBoundary d := by
  intro d hd
  rcases List.mem_cons.1 hd with h | h
  · rw [h]; decide
  · exact not_isBoundary_of_isDigit (hB d h)

/-- The outcome of `handle_msg` on every request text `"<A> <c> <B>"` whose
operands are digit strings and whose middle character is a boundary. -/
theorem handle_msg_exprMsg (choice : Int) (r : ℚ) (A B : List Char) (c : Char)
    (hA : ∀ d ∈ A, isDigit d) (hB : ∀ d ∈ B, isDigit d) (hc : isBoundary c) :
    handle_msg (exprMsg A c B) (exprMsg A c B).length r choice =
      if decode_operation c = ERR ∨ decode_operation c ≠ choice then some (-4, r)
      else some (handle_msg_eval ⟨accRun 0 A, accRun 0 B, decode_operation c, 1⟩ r) := by
  rw [exprMsg_split, handle_msg_single choice r _ _ c (run_of_digits_space hA)
    (run_of_space_digits hB) hc]
  have h1 : ¬ (A ++ [' '] = [] ∨ ' ' :: B = []) := by simp
  rw [if_neg h1, accRun_append]
  rfl

theorem accRun_zero_digits (ds : List Char) (hds : ∀ c ∈ ds, isDigit c)
    (h : decVal ds ≤ 214748364) : accRun 0 ds = 10 * (decVal ds : Int) := by
  have := accRun_digits ds hds 0 h
  simpa [decVal] using this

theorem operator_isBoundary {op : Char} (hop : op = '+' ∨ op = '-' ∨ op = '*' ∨ op = '/') :
    isBoundary op := by
  rcases hop with rfl | rfl | rfl | rfl <;> decide

theorem accRun_zeros (z : List Char) (hz : ∀ c ∈ z, c = '0') : accRun 0 z = 0 := by
  induction z with
  | nil => rfl
  | cons c cs ih =>
    have hc : c = '0' := hz c (List.mem_cons_self _ _)
    have hcs : ∀ d ∈ cs, d = '0' := fun d hd => hz d (List.mem_cons_of_mem _ hd)
    subst hc
    have hp : pushDigit 0 '0' = 0 := by decide
    simp only [accRun, hp]
    exact ih hcs

/-- The first boundary character of a buffer, met at index `pre.length`. -/
theorem scanFrom_first (len choice : Int) (pre post : List Char) (c : Char)
    (hpre : ∀ d ∈ pre, ¬ isBoundary d) (hc : isBoundary c) :
    scanFrom len choice 0 (pre ++ c :: post) ExprState.init =
      if (pre.length : Int) = len - 1 ∨ pre.length = 0 then .ret (-1)
      else if decode_operation c = ERR ∨ decode_operation c ≠ choice then .ret (-4)
      else scanFrom len choice (pre.length + 1) post
        ⟨accRun 0 pre, 0, decode_operation c, 1⟩ := by
  rw [scanFrom_append, scanFrom_run _ _ pre hpre]
  simp only [ExprState.init, if_true, Nat.zero_add]
  rw [scanFrom, handle_msg_step_boundary _ _ _ _ _ hc]
  have ha : ¬ ((0 + 1) % 256 > 1) := by decide
  rw [if_neg ha]
  split_ifs <;> rfl

/-- Once one operator has been taken (`a = 1`), the next boundary character
makes the loop return -1. -/
theorem scanFrom_second (len choice : Int) (mid rest : List Char) (c : Char) (i : Nat)
    (s : ExprState) (hmid : ∀ d ∈ mid, ¬ isBoundary d) (hc : isBoundary c) (ha : s.a = 1) :
    scanFrom len choice i (mid ++ c :: rest) s = .ret (-1) := by
  rw [scanFrom_append, scanFrom_run _ _ mid hmid]
  have h0 : ¬ (s.a = 0) := by omega
  simp only [h0, if_false]
  rw [scanFrom, handle_msg_step_boundary _ _ _ _ _ hc]
  have h2 : (1 + 1) % 256 > 1 := by decide
  simp only [ha, h2, if_true]

/-- A list with a character satisfying `p` splits at the first such character. -/
theorem split_at_first (p : Char → Bool) (l : List Char) (h : 1 ≤ l.countP p) :
    ∃ pre c rest, l = pre ++ c :: rest ∧ (∀ d ∈ pre, p d = false) ∧ p c = true ∧
      rest.countP p + 1 = l.countP p := by
  induction l with
  | nil => simp at h
  | cons a as ih =>
    by_cases ha : p a = true
    · exact ⟨[], a, as, rfl, by simp, ha, by simp [List.countP_cons, ha]⟩
    · have hcnt : (a :: as).countP p = as.countP p := by simp [List.countP_cons, ha]
      rw [hcnt] at h
      obtain ⟨pre, c, rest, hl, hpre, hc, hn⟩ := ih h
      refine ⟨a :: pre, c, rest, by rw [hl]; rfl, ?_, hc, by rw [hcnt]; exact hn⟩
      intro d hd
      rcases List.mem_cons.1 hd with rfl | h'
      · simpa using ha
      · exact hpre d h'

/-! ## Lemmas on the scan of `handle_gpa` -/

theorem gpaDigit_commas (s : GpaState) (c : Char) : (gpaDigit s c).commas = s.commas := by
  unfold gpaDigit; split_ifs <;> rfl

theorem gpaComma_commas (s : GpaState) : (gpaComma s).commas = wrap32 (s.commas + 1) := by
  unfold gpaComma; split_ifs <;> rfl

/-- The comma counter never exceeds the number of bytes scanned. -/
theorem handle_gpa_loop_commas (msg : List Char) :
    ∀ (n i : Nat) (s : GpaState) (rv : Int) (s1 : GpaState),
      handle_gpa_loop msg n i s = some (rv, s1) →
      0 ≤ s.commas → s.commas ≤ i → i + n < 2147483648 →
      0 ≤ s1.commas ∧ s1.commas ≤ (i + n : Nat) := by
  intro n
  induction n with
  | zero =>
    intro i s rv s1 h h0 h1 _
    simp only [handle_gpa_loop, Option.some.injEq, Prod.mk.injEq] at h
    rw [← h.2]; exact ⟨h0, by simpa using h1⟩
  | succ n ih =>
    intro i s rv s1 h h0 h1 hb
    have hstay : 0 ≤ s.commas ∧ s.commas ≤ (i + (n + 1) : Nat) := ⟨h0, by push_cast; omega⟩
    have hi : i + 1 + n = i + (n + 1) := by omega
    rw [handle_gpa_loop] at h
    cases hget : msg[i]? with
    | none => rw [hget] at h; exact absurd h (by simp)
    | some c =>
      rw [hget] at h
      simp only [] at h
      split_ifs at h with hsp hd hcm hmi
      · have := ih (i + 1) s rv s1 h h0 (by push_cast; omega) (by omega)
        rwa [hi] at this
      · have := ih (i + 1) (gpaDigit s c) rv s1 h (by rw [gpaDigit_commas]; exact h0)
          (by rw [gpaDigit_commas]; push_cast; omega) (by omega)
        rwa [hi] at this
      · have hw : wrap32 (s.commas + 1) = s.commas + 1 := wrap32_id _ (by omega) (by omega)
        have := ih (i + 1) (gpaComma s) rv s1 h (by rw [gpaComma_commas, hw]; omega)
          (by rw [gpaComma_commas, hw]; push_cast; omega) (by omega)
        rwa [hi] at this
      · cases hnext : msg[i + 1]? with
        | none => rw [hnext] at h; exact absurd h (by simp)
        | some d =>
          rw [hnext] at h
          simp only [] at h
          split_ifs at h <;>
          · simp only [Option.some.injEq, Prod.mk.injEq] at h
            rw [← h.2]; exact hstay
      · simp only [Option.some.injEq, Prod.mk.injEq] at h
        rw [← h.2]; exact hstay

/-- The value `handle_gpa` returns, from the outcome of its loop. -/
theorem handle_gpa_of_loop (msg : List Char) (r : ℚ) (length : Int) (rv : Int) (s : GpaState)
    (hloop : handle_gpa_loop msg (length - 1).toNat 0 GpaState.init = some (rv, s))
    (hdiv : wrap32 (s.commas + 1) ≠ 0) :
    handle_gpa msg r length =
      some (rv, floatDiv (intToFloat s.res) (intToFloat (wrap32 (s.commas + 1)))) := by
  simp only [handle_gpa, hloop, hdiv, if_false]

/-- The value `handle_gpa` stores when both float operands are positive, from
the rounded significand of their quotient. -/
theorem handle_gpa_value (msg : List Char) (r : ℚ) (length : Int) (rv : Int) (s : GpaState)
    (N k : Nat)
    (hloop : handle_gpa_loop msg (length - 1).toNat 0 GpaState.init = some (rv, s))
    (hdiv : wrap32 (s.commas + 1) ≠ 0)
    (hx : 0 < intToFloat s.res) (hy : 0 < intToFloat (wrap32 (s.commas + 1)))
    (h : roundSignificand (intToFloat s.res).natAbs (intToFloat (wrap32 (s.commas + 1))).natAbs
      = (N, (k : Int))) :
    handle_gpa msg r length = some (rv, (N : ℚ) / 2 ^ k) := by
  rw [handle_gpa_of_loop msg r length rv s hloop hdiv, floatDiv_pos _ _ N k hx hy h]

/-- For a declared length that fits a C `int`, the function returns the status
of its loop and the float quotient of `res` by `commas + 1`, which is at least
1. -/
theorem handle_gpa_of_loop_exact (msg : List Char) (r : ℚ) (rv : Int) (s : GpaState)
    (hlen : msg.length < 2147483648)
    (hloop : handle_gpa_loop msg (msg.length - 1) 0 GpaState.init = some (rv, s)) :
    0 ≤ s.commas ∧ s.commas + 1 < 2147483648 ∧
    handle_gpa msg r msg.length =
      some (rv, floatDiv (intToFloat s.res) (intToFloat (s.commas + 1))) := by
  have hb := handle_gpa_loop_commas msg (msg.length - 1) 0 GpaState.init rv s hloop
    (le_refl _) (le_refl _) (by omega)
  have hc1 : s.commas + 1 < 2147483648 := by
    have := hb.2
    push_cast at this
    omega
  have hw : wrap32 (s.commas + 1) = s.commas + 1 := wrap32_id _ (by omega) (by omega)
  have hn : ((msg.length : Int) - 1).toNat = msg.length - 1 := by omega
  refine ⟨hb.1, hc1, ?_⟩
  rw [handle_gpa_of_loop msg r msg.length rv s (by rw [hn]; exact hloop) (by rw [hw]; omega), hw]

/-- An illegal byte at index `j`, scanned before any terminator, makes the
loop stop with `rv = -5`, at `j` or earlier. -/
theorem handle_gpa_loop_illegal (msg : List Char) (j : Nat) (c : Char)
    (hc : msg[j]? = some c) (hill : isIllegal c) :
    ∀ (n i : Nat) (s : GpaState), i ≤ j → j < i + n → i + n < msg.length →
      (∀ k, i ≤ k → k < j → ¬ terminatorAt msg k) →
      ∃ s1, handle_gpa_loop msg n i s = some (-5, s1) := by
  intro n
  induction n with
  | zero => intro i s h1 h2; omega
  | succ n ih =>
    intro i s hij hjn hlen hterm
    obtain ⟨ci, hci⟩ : ∃ ci, msg[i]? = some ci :=
      ⟨msg[i], List.getElem?_eq_getElem (by omega)⟩
    obtain ⟨d, hd⟩ : ∃ d, msg[i + 1]? = some d :=
      ⟨msg[i + 1], List.getElem?_eq_getElem (by omega)⟩
    rw [handle_gpa_loop, hci]
    simp only []
    by_cases heq : i = j
    · subst heq
      rw [hc] at hci
      cases hci
      obtain ⟨h1, h2, h3, h4⟩ := hill
      rw [if_neg h3, if_neg h1, if_neg h2, if_neg h4]
      exact ⟨s, rfl⟩
    · have hlt : i + 1 ≤ j := by omega
      have hterm1 : ∀ k, i + 1 ≤ k → k < j → ¬ terminatorAt msg k :=
        fun k hk1 hk2 => hterm k (by omega) hk2
      split_ifs with hsp hdig hcm hmi
      · exact ih (i + 1) _ hlt (by omega) (by omega) hterm1
      · exact ih (i + 1) _ hlt (by omega) (by omega) hterm1
      · exact ih (i + 1) _ hlt (by omega) (by omega) hterm1
      · rw [hd]
        simp only []
        have hd1 : d ≠ '1' := by
          intro h1
          exact hterm i (le_refl _) (by omega) ⟨by rw [hci, hmi], by rw [hd, h1]⟩
        rw [if_neg hd1]
        exact ⟨s, rfl⟩
      · exact ⟨s, rfl⟩

/-- Over a run of body characters the loop never stops; it only updates the
locals. -/
theorem handle_gpa_loop_feed (rest : List Char) (n : Nat) (body : List Char) :
    ∀ (pre : List Char) (s : GpaState), (∀ c ∈ body, isBody c) →
      handle_gpa_loop (pre ++ body ++ rest) (body.length + n) pre.length s =
        handle_gpa_loop (pre ++ body ++ rest) n (pre.length + body.length) (gpaFeed s body) := by
  induction body with
  | nil => intro pre s _; simp [gpaFeed]
  | cons c cs ih =>
    intro pre s hb
    have hc : isBody c := hb c (List.mem_cons_self _ _)
    have hcs : ∀ d ∈ cs, isBody d := fun d hd => hb d (List.mem_cons_of_mem _ hd)
    have hget : (pre ++ (c :: cs) ++ rest)[pre.length]? = some c := by
      rw [List.append_assoc, List.getElem?_append_right (le_refl _)]; simp
    have hn : (c :: cs).length + n = (cs.length + n) + 1 := by simp; omega
    have hlist : pre ++ (c :: cs) ++ rest = (pre ++ [c]) ++ cs ++ rest := by simp
    have hidx : pre.length + (c :: cs).length = (pre ++ [c]).length + cs.length := by
      simp; omega
    have hnext : ∀ s1 : GpaState,
        handle_gpa_loop (pre ++ (c :: cs) ++ rest) (cs.length + n) (pre.length + 1) s1 =
          handle_gpa_loop (pre ++ (c :: cs) ++ rest) n (pre.length + (c :: cs).length)
            (gpaFeed s1 cs) := by
      intro s1
      have := ih (pre ++ [c]) s1 hcs
      rw [← hlist, ← hidx] at this
      simpa using this
    rw [hn, handle_gpa_loop, hget]
    simp only []
    by_cases hsp : c = ' '
    · rw [if_pos hsp, hnext, gpaFeed, if_pos hsp]
    · by_cases hd : isDigit c
      · rw [if_neg hsp, if_pos hd, hnext, gpaFeed, if_neg hsp, if_pos hd]
      · have hcm : c = ',' := by
          rcases hc with h | h | h
          · exact absurd h hsp
          · exact absurd h hd
          · exact h
        rw [if_neg hsp, if_neg hd, if_pos hcm, hnext, gpaFeed, if_neg hsp, if_neg hd]

/-- A body followed by the terminator: the loop breaks at the `-` with
`rv = 0`, whatever follows. -/
theorem handle_gpa_loop_terminated (body rest : List Char) (n : Nat)
    (hb : ∀ c ∈ body, isBody c) :
    handle_gpa_loop (body ++ '-' :: '1' :: rest) (body.length + (n + 1)) 0 GpaState.init =
      some (0, gpaFeed GpaState.init body) := by
  have h := handle_gpa_loop_feed ('-' :: '1' :: rest) (n + 1) body [] GpaState.init hb
  simp only [List.nil_append, List.length_nil, Nat.zero_add] at h
  rw [h, handle_gpa_loop]
  have h1 : (body ++ '-' :: '1' :: rest)[body.length]? = some '-' := by
    rw [List.getElem?_append_right (le_refl _)]; simp
  have h2 : (body ++ '-' :: '1' :: rest)[body.length + 1]? = some '1' := by
    rw [List.getElem?_append_right (by omega)]; simp
  rw [h1]
  simp only []
  rw [h2]
  have e1 : ¬ ('-' = ' ') := by decide
  have e2 : ¬ isDigit '-' := by decide
  have e3 : ¬ ('-' = ',') := by decide
  simp only [e1, e2, e3, if_false, if_true]

theorem gpaFeed_append (l1 l2 : List Char) :
    ∀ s : GpaState, gpaFeed s (l1 ++ l2) = gpaFeed (gpaFeed s l1) l2 := by
  induction l1 with
  | nil => intro s; rfl
  | cons c cs ih =>
    intro s
    rw [show (c :: cs) ++ l2 = c :: (cs ++ l2) from rfl]
    simp only [gpaFeed]
    split_ifs <;> exact ih _

theorem gpaFeed_digits_even (ds : List Char) (hds : ∀ c ∈ ds, isDigit c) :
    ∀ s : GpaState, Int.tmod s.commas 2 = 0 → gpaFeed s ds = { s with m := accRun s.m ds } := by
  induction ds with
  | nil => intro s _; rfl
  | cons c cs ih =>
    intro s hs
    have hc : isDigit c := hds c (List.mem_cons_self _ _)
    have hsp : c ≠ ' ' := isDigit_ne_space hc
    have hg : gpaDigit s c = { s with m := pushDigit s.m c } := by
      unfold gpaDigit; rw [if_pos hs]
    rw [gpaFeed, if_neg hsp, if_pos hc, hg,
      ih (fun d hd => hds d (List.mem_cons_of_mem _ hd)) { s with m := pushDigit s.m c } hs]
    simp only [accRun, hsp, if_false]

theorem gpaFeed_digits_odd (ds : List Char) (hds : ∀ c ∈ ds, isDigit c) :
    ∀ s : GpaState, Int.tmod s.commas 2 ≠ 0 → gpaFeed s ds = { s with h := accRun s.h ds } := by
  induction ds with
  | nil => intro s _; rfl
  | cons c cs ih =>
    intro s hs
    have hc : isDigit c := hds c (List.mem_cons_self _ _)
    have hsp : c ≠ ' ' := isDigit_ne_space hc
    have hg : gpaDigit s c = { s with h := pushDigit s.h c } := by
      unfold gpaDigit; rw [if_neg hs]
    rw [gpaFeed, if_neg hsp, if_pos hc, hg,
      ih (fun d hd => hds d (List.mem_cons_of_mem _ hd)) { s with h := pushDigit s.h c } hs]
    simp only [accRun, hsp, if_false]

theorem gpaFeed_comma (s : GpaState) : gpaFeed s [','] = gpaComma s := by
  have e1 : ¬ (',' = ' ') := by decide
  have e2 : ¬ isDigit ',' := by decide
  simp only [gpaFeed, e1, e2, if_false]

theorem tmod_two_even (k : Nat) : Int.tmod (2 * (k : Int)) 2 = 0 := by
  rw [Int.tmod_eq_emod (by omega) (by omega)]; omega

theorem tmod_two_odd (k : Nat) : Int.tmod (2 * (k : Int) + 1) 2 ≠ 0 := by
  rw [Int.tmod_eq_emod (by omega) (by omega)]; omega

/-- One `mark,hours,` entry read from a state between two entries. -/
theorem gpaFeed_pair (s : GpaState) (m h k : Nat)
    (hm0 : s.m = 0) (hh0 : s.h = 0) (hc : s.commas = 2 * (k : Int))
    (hk : 2 * k + 2 < 2147483648) (hm : m ≤ 214748364) (hh : h ≤ 214748364)
    (hres : 0 ≤ s.res) (hfit : s.res + (m : Int) * h < 2147483648) :
    (gpaFeed s (Nat.toDigits 10 m ++ [','] ++ Nat.toDigits 10 h ++ [','])).m = 0 ∧
    (gpaFeed s (Nat.toDigits 10 m ++ [','] ++ Nat.toDigits 10 h ++ [','])).h = 0 ∧
    (gpaFeed s (Nat.toDigits 10 m ++ [','] ++ Nat.toDigits 10 h ++ [','])).commas
      = 2 * ((k + 1 : Nat) : Int) ∧
    (gpaFeed s (Nat.toDigits 10 m ++ [','] ++ Nat.toDigits 10 h ++ [','])).res
      = s.res + (m : Int) * h := by
  obtain ⟨m0, h0, fm, c0, r0⟩ := s
  simp only at hm0 hh0 hc hres hfit
  subst hm0 hh0 hc
  have hx : accRun 0 (Nat.toDigits 10 m) = 10 * (m : Int) := by
    rw [accRun_zero_digits _ (toDigits_isDigit m) (by rw [decVal_toDigits]; exact hm),
      decVal_toDigits]
  have hy : accRun 0 (Nat.toDigits 10 h) = 10 * (h : Int) := by
    rw [accRun_zero_digits _ (toDigits_isDigit h) (by rw [decVal_toDigits]; exact hh),
      decVal_toDigits]
  have hxd : Int.tdiv (10 * (m : Int)) 10 = m := by
    rw [Int.mul_tdiv_cancel_left _ (by decide)]
  have hyd : Int.tdiv (10 * (h : Int)) 10 = h := by
    rw [Int.mul_tdiv_cancel_left _ (by decide)]
  have hw1 : wrap32 (2 * (k : Int) + 1) = 2 * (k : Int) + 1 := wrap32_id _ (by omega) (by omega)
  have hw2 : wrap32 (2 * (k : Int) + 1 + 1) = 2 * ((k + 1 : Nat) : Int) := by
    rw [wrap32_id _ (by omega) (by omega)]; push_cast; ring
  have hmh : 0 ≤ (m : Int) * h := Int.mul_nonneg (Int.ofNat_nonneg m) (Int.ofNat_nonneg h)
  have hw3 : wrap32 ((m : Int) * h) = (m : Int) * h :=
    wrap32_id _ (le_trans (by norm_num) hmh) (by linarith)
  have hw4 : wrap32 (r0 + (m : Int) * h) = r0 + (m : Int) * h :=
    wrap32_id _ (le_trans (by norm_num) (add_nonneg hres hmh)) hfit
  have e1 : gpaFeed ⟨0, 0, fm, 2 * (k : Int), r0⟩ (Nat.toDigits 10 m)
      = ⟨10 * (m : Int), 0, fm, 2 * (k : Int), r0⟩ := by
    rw [gpaFeed_digits_even _ (toDigits_isDigit m) _ (tmod_two_even k)]
    simp only [hx]
  have e2 : gpaFeed ⟨10 * (m : Int), 0, fm, 2 * (k : Int), r0⟩ [',']
      = ⟨10 * (m : Int), 0, fm, 2 * (k : Int) + 1, r0⟩ := by
    rw [gpaFeed_comma]
    simp only [gpaComma, tmod_two_even k, ne_eq, not_true_eq_false, if_false, hw1]
  have e3 : gpaFeed ⟨10 * (m : Int), 0, fm, 2 * (k : Int) + 1, r0⟩ (Nat.toDigits 10 h)
      = ⟨10 * (m : Int), 10 * (h : Int), fm, 2 * (k : Int) + 1, r0⟩ := by
    rw [gpaFeed_digits_odd _ (toDigits_isDigit h) _ (tmod_two_odd k)]
    simp only [hy]
  have e4 : gpaFeed ⟨10 * (m : Int), 10 * (h : Int), fm, 2 * (k : Int) + 1, r0⟩ [',']
      = ⟨0, 0, wrap32 (fm + wrap32 (100 * (h : Int))), 2 * ((k + 1 : Nat) : Int),
          r0 + (m : Int) * h⟩ := by
    rw [gpaFeed_comma]
    simp only [gpaComma, tmod_two_odd k, ne_eq, not_false_eq_true, if_true, hxd, hyd, hw2, hw3,
      hw4]
  rw [gpaFeed_append, gpaFeed_append, gpaFeed_append, e1, e2, e3, e4]
  exact ⟨rfl, rfl, rfl, rfl⟩

theorem rosterBody_cons (p : Nat × Nat) (ps : List (Nat × Nat)) :
    rosterBody (p :: ps) =
      (Nat.toDigits 10 p.1 ++ [','] ++ Nat.toDigits 10 p.2 ++ [',']) ++ rosterBody ps := by
  simp only [rosterBody, List.flatMap_cons, repr_toList]

theorem weightedSum_cons (p : Nat × Nat) (ps : List (Nat × Nat)) :
    weightedSum (p :: ps) = p.1 * p.2 + weightedSum ps := by
  simp only [weightedSum, List.map_cons, List.sum_cons]

/-- The locals after the entries of a roster, read from a state between two
entries. -/
theorem gpaFeed_rosterBody (pairs : List (Nat × Nat)) :
    ∀ (s : GpaState) (k : Nat), s.m = 0 → s.h = 0 → s.commas = 2 * (k : Int) →
      2 * (k + pairs.length) < 2147483648 →
      (∀ p ∈ pairs, p.1 ≤ 214748364 ∧ p.2 ≤ 214748364) →
      0 ≤ s.res → s.res + (weightedSum pairs : Int) < 2147483648 →
      (gpaFeed s (rosterBody pairs)).m = 0 ∧ (gpaFeed s (rosterBody pairs)).h = 0 ∧
      (gpaFeed s (rosterBody pairs)).commas = 2 * ((k + pairs.length : Nat) : Int) ∧
      (gpaFeed s (rosterBody pairs)).res = s.res + (weightedSum pairs : Int) := by
  induction pairs with
  | nil =>
    intro s k hm hh hc _ _ _ _
    simp only [rosterBody, List.flatMap_nil, gpaFeed, weightedSum, List.map_nil, List.sum_nil,
      List.length_nil, Nat.add_zero, Nat.cast_zero, add_zero]
    exact ⟨hm, hh, hc, trivial⟩
  | cons p ps ih =>
    intro s k hm hh hc hk hp hres hfit
    have hp1 := hp p (List.mem_cons_self _ _)
    have hps : ∀ q ∈ ps, q.1 ≤ 214748364 ∧ q.2 ≤ 214748364 :=
      fun q hq => hp q (List.mem_cons_of_mem _ hq)
    rw [weightedSum_cons] at hfit
    push_cast at hfit
    have hw0 : (0 : Int) ≤ (weightedSum ps : Int) := Int.ofNat_nonneg _
    have hmh : (0 : Int) ≤ (p.1 : Int) * (p.2 : Int) :=
      Int.mul_nonneg (Int.ofNat_nonneg _) (Int.ofNat_nonneg _)
    simp only [List.length_cons] at hk
    obtain ⟨e1, e2, e3, e4⟩ := gpaFeed_pair s p.1 p.2 k hm hh hc (by omega) hp1.1 hp1.2 hres
      (by linarith)
    rw [rosterBody_cons, gpaFeed_append]
    obtain ⟨f1, f2, f3, f4⟩ := ih _ (k + 1) e1 e2 e3 (by omega) hps (by rw [e4]; linarith)
      (by rw [e4]; linarith)
    refine ⟨f1, f2, ?_, ?_⟩
    · rw [f3]; simp only [List.length_cons]; congr 2; omega
    · rw [f4, e4, weightedSum_cons]; push_cast; ring

theorem rosterBody_isBody (pairs : List (Nat × Nat)) : ∀ c ∈ rosterBody pairs, isBody c := by
  induction pairs with
  | nil => intro c hc; simp [rosterBody] at hc
  | cons p ps ih =>
    intro c hc
    rw [rosterBody_cons] at hc
    simp only [List.mem_append, List.mem_singleton] at hc
    rcases hc with ((((h | h) | h) | h) | h)
    · exact Or.inr (Or.inl (toDigits_isDigit _ c h))
    · exact Or.inr (Or.inr h)
    · exact Or.inr (Or.inl (toDigits_isDigit _ c h))
    · exact Or.inr (Or.inr h)
    · exact ih c h

theorem count_comma_digits (ds : List Char) (hds : ∀ c ∈ ds, isDigit c) : ds.count ',' = 0 := by
  rw [List.count_eq_zero]
  intro hmem
  exact absurd (hds ',' hmem) (by decide)

theorem count_comma_rosterBody (pairs : List (Nat × Nat)) :
    (rosterBody pairs).count ',' = 2 * pairs.length := by
  induction pairs with
  | nil => simp [rosterBody]
  | cons p ps ih =>
    rw [rosterBody_cons]
    simp only [List.count_append, count_comma_digits _ (toDigits_isDigit _), ih,
      List.count_singleton_self, List.length_cons]
    omega

theorem count_comma_rosterMsg (pairs : List (Nat × Nat)) :
    (rosterMsg pairs).count ',' = 2 * pairs.length := by
  have h : ['-', '1'].count ',' = 0 := by decide
  rw [rosterMsg, List.count_append, count_comma_rosterBody, h]; rfl

/-- The outcome of `handle_msg` on a well-formed request whose operands do not
overflow the accumulators: status 0 and the integer result converted to
`float`. -/
theorem handle_msg_request_value (a b : Nat) (op : Char) (r : ℚ)
    (ha : a ≤ 214748364) (hb : b ≤ 214748364)
    (hop : op = '+' ∨ op = '-' ∨ op = '*' ∨ op = '/')
    (hdiv : op = '/' → b ≠ 0)
    (hfit : -2147483648 ≤ exactResult op a b ∧ exactResult op a b ≤ 2147483647) :
    handle_msg (exprMsg (Nat.repr a).toList op (Nat.repr b).toList)
        (exprMsg (Nat.repr a).toList op (Nat.repr b).toList).length r (decode_operation op)
      = some (0, ((intToFloat (exactResult op a b) : Int) : ℚ)) := by
  rw [repr_toList, repr_toList,
    handle_msg_exprMsg _ r _ _ op (toDigits_isDigit a) (toDigits_isDigit b)
      (operator_isBoundary hop)]
  have hx : accRun 0 (Nat.toDigits 10 a) = 10 * (a : Int) := by
    rw [accRun_zero_digits _ (toDigits_isDigit a) (by rw [decVal_toDigits]; exact ha),
      decVal_toDigits]
  have hy : accRun 0 (Nat.toDigits 10 b) = 10 * (b : Int) := by
    rw [accRun_zero_digits _ (toDigits_isDigit b) (by rw [decVal_toDigits]; exact hb),
      decVal_toDigits]
  have hxd : Int.tdiv (10 * (a : Int)) 10 = a := by
    rw [Int.mul_tdiv_cancel_left _ (by decide)]
  have hyd : Int.tdiv (10 * (b : Int)) 10 = b := by
    rw [Int.mul_tdiv_cancel_left _ (by decide)]
  rw [hx, hy]
  rcases hop with rfl | rfl | rfl | rfl
  · have hne : ¬ (decode_operation '+' = ERR ∨ decode_operation '+' ≠ decode_operation '+') := by
      decide
    rw [if_neg hne]
    simp only [handle_msg_eval, hxd, hyd]
    have hw : wrap32 ((a : Int) + b) = (a : Int) + b := wrap32_id _ (by omega) (by omega)
    simp [decode_operation, ADD, exactResult, hw]
  · have hne : ¬ (decode_operation '-' = ERR ∨ decode_operation '-' ≠ decode_operation '-') := by
      decide
    rw [if_neg hne]
    simp only [handle_msg_eval, hxd, hyd]
    have hw : wrap32 ((a : Int) - b) = (a : Int) - b := wrap32_id _ (by omega) (by omega)
    simp [decode_operation, ADD, MINUS, exactResult, hw]
  · have hne : ¬ (decode_operation '*' = ERR ∨ decode_operation '*' ≠ decode_operation '*') := by
      decide
    rw [if_neg hne]
    simp only [handle_msg_eval, hxd, hyd]
    have he : exactResult '*' a b = (a : Int) * b := by simp [exactResult]
    rw [he] at hfit
    have hw : wrap32 ((a : Int) * b) = (a : Int) * b := wrap32_id _ hfit.1 (by omega)
    simp [decode_operation, ADD, MINUS, MUL, exactResult, hw]
  · have hne : ¬ (decode_operation '/' = ERR ∨ decode_operation '/' ≠ decode_operation '/') := by
      decide
    rw [if_neg hne]
    simp only [handle_msg_eval, hxd, hyd]
    have hb0 : (b : Int) ≠ 0 := by exact_mod_cast hdiv rfl
    have hq : Int.tdiv (a : Int) (b : Int) = ((a / b : Nat) : Int) := by
      rw [Int.tdiv_eq_ediv (Int.ofNat_nonneg a) (Int.ofNat_nonneg b)]; norm_cast
    simp [decode_operation, ADD, MINUS, MUL, DIV, exactResult, hb0, hq]

/-! ## The expression evaluator on well-formed and ill-formed requests -/

/-- C1, as stated, fails: 16777216 and 1 lie within the claim's bounds and their
sum fits in 32 bits, yet on `"16777216 + 1"` with ADD the cell, a `float`,
receives 16777216 and not the integer 16777217. -/
theorem handle_msg_valid_request_counterexample :
    ((16777216 : Nat) ≤ 214748364 ∧ (1 : Nat) ≤ 214748364 ∧
      exactResult '+' 16777216 1 = 16777217 ∧ exactResult '+' 16777216 1 ≤ 2147483647) ∧
    exprMsg (Nat.repr 16777216).toList '+' (Nat.repr 1).toList
      = ['1', '6', '7', '7', '7', '2', '1', '6', ' ', '+', ' ', '1'] ∧
    handle_msg ['1', '6', '7', '7', '7', '2', '1', '6', ' ', '+', ' ', '1'] 12 0 ADD
      = some (0, 16777216) ∧
    handle_msg ['1', '6', '7', '7', '7', '2', '1', '6', ' ', '+', ' ', '1'] 12 0 ADD
      ≠ some (0, 16777217) := by
  decide

/-- C1, amended: for all naturals `a, b ≤ 214748364` and every operator
character among `+ - * /` (with `b ≠ 0` for `/`) whose exact result fits in a
signed 32-bit integer, `handle_msg` on the text
`"<decimal a> <op> <decimal b>"` with its exact length and
`choice = decode_operation op` returns 0 and stores the `float` nearest to the
integer `a+b`, `a-b`, `a*b` or the truncated quotient `a/b`, which is that
integer itself whenever its magnitude is at most `2^24 = 16777216`. -/
theorem handle_msg_valid_request (a b : Nat) (op : Char) (r : ℚ)
    (ha : a ≤ 214748364) (hb : b ≤ 214748364)
    (hop : op = '+' ∨ op = '-' ∨ op = '*' ∨ op = '/')
    (hdiv : op = '/' → b ≠ 0)
    (hfit : -2147483648 ≤ exactResult op a b ∧ exactResult op a b ≤ 2147483647) :
    handle_msg (exprMsg (Nat.repr a).toList op (Nat.repr b).toList)
        (exprMsg (Nat.repr a).toList op (Nat.repr b).toList).length r (decode_operation op)
      = some (0, ((intToFloat (exactResult op a b) : Int) : ℚ)) ∧
    ((-16777216 ≤ exactResult op a b ∧ exactResult op a b ≤ 16777216) →
      intToFloat (exactResult op a b) = exactResult op a b) :=
  ⟨handle_msg_request_value a b op r ha hb hop hdiv hfit,
    fun h => intToFloat_small _ h.1 h.2⟩

theorem handle_msg_valid_request_witness :
    handle_msg ['1', '2', ' ', '+', ' ', '7'] 6 0 ADD = some (0, 19) ∧
    ((-16777216 ≤ exactResult '+' 12 7 ∧ exactResult '+' 12 7 ≤ 16777216) →
      intToFloat (exactResult '+' 12 7) = exactResult '+' 12 7) :=
  handle_msg_valid_request 12 7 '+' 0 (by decide) (by decide) (Or.inl rfl) (by decide)
    (by decide)

/-- C2: for every natural `a ≤ 214748364` and every non-empty string `z` of
`'0'` characters, `handle_msg` on `"<decimal a> / <z>"` with choice `DIV`
returns -3, a status different from 0, -1 and -4, and leaves `*result` as it
was. -/
theorem handle_msg_division_by_zero (a : Nat) (z : List Char) (r : ℚ)
    (_ha : a ≤ 214748364) (_hz0 : z ≠ []) (hz : ∀ c ∈ z, c = '0') :
    ∃ st : Int,
      handle_msg (exprMsg (Nat.repr a).toList '/' z)
          (exprMsg (Nat.repr a).toList '/' z).length r DIV = some (st, r) ∧
      st = -3 ∧ st ≠ 0 ∧ st ≠ -1 ∧ st ≠ -4 := by
  refine ⟨-3, ?_, rfl, by decide, by decide, by decide⟩
  have hzd : ∀ c ∈ z, isDigit c := by
    intro c hc; rw [hz c hc]; decide
  rw [repr_toList, handle_msg_exprMsg _ r _ _ '/' (toDigits_isDigit a) hzd (by decide)]
  have hne : ¬ (decode_operation '/' = ERR ∨ decode_operation '/' ≠ DIV) := by decide
  rw [if_neg hne, accRun_zeros z hz]
  simp [handle_msg_eval, decode_operation, ADD, MINUS, MUL, DIV]

theorem handle_msg_division_by_zero_witness :
    ∃ st : Int, handle_msg ['5', ' ', '/', ' ', '0'] 5 7 DIV = some (st, 7) ∧
      st = -3 ∧ st ≠ 0 ∧ st ≠ -1 ∧ st ≠ -4 :=
  handle_msg_division_by_zero 5 ['0'] 7 (by decide) (by decide) (by decide)

/-- C3: for every text `"<digits> <op> <digits>"` with non-empty digit runs and
`op` among `+ - * /`, and every `choice` different from `decode_operation op`,
`handle_msg` returns -4 (not -1, -3 or 0) and leaves `*result` as it was. -/
theorem handle_msg_operator_mismatch (A B : List Char) (op : Char) (choice : Int) (r : ℚ)
    (_hA0 : A ≠ []) (_hB0 : B ≠ []) (hA : ∀ d ∈ A, isDigit d) (hB : ∀ d ∈ B, isDigit d)
    (hop : op = '+' ∨ op = '-' ∨ op = '*' ∨ op = '/')
    (hch : choice ≠ decode_operation op) :
    ∃ st : Int,
      handle_msg (exprMsg A op B) (exprMsg A op B).length r choice = some (st, r) ∧
      st = -4 ∧ st ≠ -1 ∧ st ≠ -3 ∧ st ≠ 0 := by
  refine ⟨-4, ?_, rfl, by decide, by decide, by decide⟩
  rw [handle_msg_exprMsg choice r A B op hA hB (operator_isBoundary hop)]
  exact if_pos (Or.inr (fun h => hch h.symm))

theorem handle_msg_operator_mismatch_witness :
    ∃ st : Int, handle_msg ['5', ' ', '+', ' ', '3'] 5 0 MINUS = some (st, 0) ∧
      st = -4 ∧ st ≠ -1 ∧ st ≠ -3 ∧ st ≠ 0 :=
  handle_msg_operator_mismatch ['5'] ['3'] '+' MINUS 0 (by decide) (by decide) (by decide)
    (by decide) (Or.inl rfl) (by decide)

/-- C4, as stated, fails: in `" +5"` the first non-space character is the
operator and in `"3 + "` the last one is, yet with choice `ADD` the function
returns 0 and stores 5 and 3. -/
theorem handle_msg_padded_operator_counterexample :
    (firstNonSpace [' ', '+', '5'] = some '+' ∧ ¬ isDigit '+' ∧
      handle_msg [' ', '+', '5'] 3 0 ADD = some (0, 5)) ∧
    (lastNonSpace ['3', ' ', '+', ' '] = some '+' ∧
      handle_msg ['3', ' ', '+', ' '] 4 0 ADD = some (0, 3)) := by
  decide

/-- C4, amended: for every message and every choice, if the first character
that is neither a space nor a digit is the character at index 0 or the one at
index `len-1` of the buffer, `handle_msg` returns -1 and leaves `*result` as
it was. -/
theorem handle_msg_operator_at_buffer_end (pre post : List Char) (c : Char) (choice : Int)
    (r : ℚ) (hpre : ∀ d ∈ pre, ¬ isBoundary d) (hc : isBoundary c)
    (hpos : pre = [] ∨ post = []) :
    handle_msg (pre ++ c :: post) (pre ++ c :: post).length r choice = some (-1, r) := by
  rw [handle_msg_exact, scanFrom_first _ choice pre post c hpre hc]
  have hidx : ((pre.length : Int) = ((pre ++ c :: post).length : Int) - 1 ∨ pre.length = 0) := by
    rcases hpos with h | h
    · right; rw [h]; rfl
    · left; rw [h]; simp
  rw [if_pos hidx]

theorem handle_msg_operator_at_buffer_end_witness :
    handle_msg ['3', ' ', '+'] 3 0 ADD = some (-1, 0) :=
  handle_msg_operator_at_buffer_end ['3', ' '] [] '+' ADD 0 (by decide) (by decide)
    (Or.inr rfl)

/-! ## The roster evaluator -/

/-- C5, as stated, fails: on `"100,1,-1"` (one pair, weighted sum 100, two
commas) the cell receives the `float` 8738133/262144, the result of the float
division of 100 by 3, and not the exact quotient 100/3. -/
theorem handle_gpa_roster_counterexample :
    (rosterMsg [(100, 1)] = ['1', '0', '0', ',', '1', ',', '-', '1'] ∧
      weightedSum [(100, 1)] = 100 ∧
      ['1', '0', '0', ',', '1', ',', '-', '1'].count ',' = 2) ∧
    handle_gpa ['1', '0', '0', ',', '1', ',', '-', '1'] 0 8 = some (0, 8738133 / 262144) ∧
    handle_gpa ['1', '0', '0', ',', '1', ',', '-', '1'] 0 8 ≠ some (0, 100 / 3) := by
  have hloop : handle_gpa_loop ['1', '0', '0', ',', '1', ',', '-', '1'] ((8 : Int) - 1).toNat 0
      GpaState.init = some (0, ⟨0, 0, 100, 2, 100⟩) := by decide
  have hval := handle_gpa_value ['1', '0', '0', ',', '1', ',', '-', '1'] 0 8 0 _ 8738133 18 hloop
    (by decide) (by decide) (by decide) (by decide)
  refine ⟨by decide, ?_, ?_⟩
  · rw [hval]; norm_num
  · rw [hval]
    simp only [ne_eq, Option.some.injEq, Prod.mk.injEq, true_and]
    norm_num

/-- C5, amended: for every non-empty list of pairs `(m_i, h_i)` with
`m_i ≤ 100` and `1 ≤ h_i ≤ 3` whose weighted sum fits in 32 bits, `handle_gpa`
on the message `"m_1,h_1,...,m_n,h_n,-1"` passed with its exact length (a C
`int`) returns 0 and stores the result of the float division of
`(float)(Σ m_i*h_i)` by `(float)(c + 1)`, with `c` the number of commas in the
message: the quotient rounded to the nearest `float`. -/
theorem handle_gpa_roster (pairs : List (Nat × Nat)) (r : ℚ)
    (_hn : 1 ≤ pairs.length)
    (hr : ∀ p ∈ pairs, p.1 ≤ 100 ∧ 1 ≤ p.2 ∧ p.2 ≤ 3)
    (hsum : weightedSum pairs < 2147483648)
    (hlen : (rosterMsg pairs).length < 2147483648) :
    handle_gpa (rosterMsg pairs) r (rosterMsg pairs).length =
      some (0, floatDiv (intToFloat (weightedSum pairs : Int))
        (intToFloat (((rosterMsg pairs).count ',' : Int) + 1))) := by
  have hcnt := count_comma_rosterMsg pairs
  have hle := List.count_le_length ',' (rosterMsg pairs)
  have hloop : handle_gpa_loop (rosterMsg pairs) ((rosterMsg pairs).length - 1) 0
      GpaState.init = some (0, gpaFeed GpaState.init (rosterBody pairs)) := by
    have h := handle_gpa_loop_terminated (rosterBody pairs) [] 0 (rosterBody_isBody pairs)
    have hl : (rosterMsg pairs).length - 1 = (rosterBody pairs).length + (0 + 1) := by
      simp [rosterMsg]
    rw [hl]; exact h
  obtain ⟨-, -, hres⟩ := handle_gpa_of_loop_exact (rosterMsg pairs) r 0 _ hlen hloop
  obtain ⟨-, -, hc, hs⟩ := gpaFeed_rosterBody pairs GpaState.init 0 rfl rfl rfl (by omega)
    (fun p hp => ⟨by have := (hr p hp).1; omega, by have := (hr p hp).2.2; omega⟩)
    (le_refl _) (by simp only [GpaState.init]; omega)
  have hs1 : (gpaFeed GpaState.init (rosterBody pairs)).res = (weightedSum pairs : Int) := by
    rw [hs]; simp [GpaState.init]
  have hc1 : (gpaFeed GpaState.init (rosterBody pairs)).commas
      = ((rosterMsg pairs).count ',' : Int) := by
    rw [hc, hcnt]; push_cast; ring
  rw [hres, hs1, hc1]

theorem handle_gpa_roster_witness :
    handle_gpa ['9', '0', ',', '3', ',', '8', '0', ',', '3', ',', '-', '1'] 0 12 = some (0, 102) := by
  have h := handle_gpa_roster [(90, 3), (80, 3)] 0 (by decide) (by decide) (by decide)
    (by decide)
  have e1 : rosterMsg [(90, 3), (80, 3)] = ['9', '0', ',', '3', ',', '8', '0', ',', '3', ',', '-', '1'] := by decide
  have ev : floatDiv (intToFloat (weightedSum [(90, 3), (80, 3)] : Int))
      (intToFloat (((['9', '0', ',', '3', ',', '8', '0', ',', '3', ',', '-', '1'].count ',' : Nat) : Int) + 1)) = 102 := by
    rw [floatDiv_pos _ _ 13369344 17 (by decide) (by decide) (by decide)]
    norm_num
  rw [e1, ev] at h
  exact h

/-- C6, as stated, fails: on `"90,3,80,3,-1"` with length 12 the loop leaves
`commas = 4`, not 3, and the stored result is not 127.5. -/
theorem handle_gpa_example_counterexample :
    (handle_gpa_loop ['9', '0', ',', '3', ',', '8', '0', ',', '3', ',', '-', '1'] 11 0
        GpaState.init).map (fun p => p.2.commas) ≠ some 3 ∧
    handle_gpa ['9', '0', ',', '3', ',', '8', '0', ',', '3', ',', '-', '1'] 0 12
      ≠ some (0, 255 / 2) := by
  have hloop : handle_gpa_loop ['9', '0', ',', '3', ',', '8', '0', ',', '3', ',', '-', '1']
      ((12 : Int) - 1).toNat 0 GpaState.init = some (0, ⟨0, 0, 600, 4, 510⟩) := by decide
  constructor
  · decide
  · rw [handle_gpa_value _ 0 12 0 _ 13369344 17 hloop (by decide) (by decide) (by decide)
      (by decide)]
    simp only [ne_eq, Option.some.injEq, Prod.mk.injEq, true_and]
    norm_num

/-- C6, amended: on `"90,3,80,3,-1"` with length 12, `handle_gpa` returns 0
with weighted sum 510, comma count 4 and result 510/5 = 102. -/
theorem handle_gpa_example :
    (∃ s : GpaState,
      handle_gpa_loop ['9', '0', ',', '3', ',', '8', '0', ',', '3', ',', '-', '1'] 11 0
        GpaState.init = some (0, s) ∧ s.res = 510 ∧ s.commas = 4) ∧
    handle_gpa ['9', '0', ',', '3', ',', '8', '0', ',', '3', ',', '-', '1'] 0 12
      = some (0, 102) := by
  have hloop : handle_gpa_loop ['9', '0', ',', '3', ',', '8', '0', ',', '3', ',', '-', '1']
      ((12 : Int) - 1).toNat 0 GpaState.init = some (0, ⟨0, 0, 600, 4, 510⟩) := by decide
  constructor
  · exact ⟨⟨0, 0, 600, 4, 510⟩, by decide, rfl, rfl⟩
  · rw [handle_gpa_value _ 0 12 0 _ 13369344 17 hloop (by decide) (by decide) (by decide)
      (by decide)]
    norm_num

/-- C7: for every roster buffer passed with its exact length (a C `int`) that
holds a terminator, if a character that is not a digit, comma, space or `-`
stands at an index before the first terminator, `handle_gpa` returns -5. -/
theorem handle_gpa_illegal_before_terminator (msg : List Char) (r : ℚ) (j t : Nat) (c : Char)
    (hlen : msg.length < 2147483648)
    (ht : terminatorAt msg t) (hfirst : ∀ k, k < t → ¬ terminatorAt msg k)
    (hj : j < t) (hc : msg[j]? = some c) (hill : isIllegal c) :
    ∃ st : Int, ∃ res : ℚ, handle_gpa msg r msg.length = some (st, res) ∧ st = -5 ∧ st ≠ 0 := by
  have ht1 : t + 1 < msg.length := by
    have h := ht.2
    by_contra hge
    rw [List.getElem?_eq_none (by omega)] at h
    exact absurd h (by simp)
  obtain ⟨s1, hs1⟩ := handle_gpa_loop_illegal msg j c hc hill (msg.length - 1) 0 GpaState.init
    (Nat.zero_le _) (by omega) (by omega) (fun k _ hk => hfirst k (by omega))
  obtain ⟨-, -, h⟩ := handle_gpa_of_loop_exact msg r (-5) s1 hlen hs1
  exact ⟨-5, _, h, rfl, by decide⟩

theorem handle_gpa_illegal_before_terminator_witness :
    ∃ st : Int, ∃ res : ℚ,
      handle_gpa ['9', '0', ',', 'x', ',', '-', '1'] 0
        (['9', '0', ',', 'x', ',', '-', '1'].length) = some (st, res) ∧ st = -5 ∧ st ≠ 0 :=
  handle_gpa_illegal_before_terminator ['9', '0', ',', 'x', ',', '-', '1'] 0 3 5 'x'
    (by decide) (by decide) (by decide) (by decide) (by decide) (by decide)

/-- C8: the code at the failing input.  On `"90,3,x"` with declared length 6
the offending byte `x` is the last byte, index 5, below the declared length and
after no terminator; the loop stops at index 4 and `handle_gpa` returns 0 with
result 270/3 = 90, not -5. -/
theorem handle_gpa_last_byte_unchecked :
    (['9', '0', ',', '3', ',', 'x'][5]? = some 'x' ∧ isIllegal 'x' ∧
      ∀ k, k < 5 → ¬ terminatorAt ['9', '0', ',', '3', ',', 'x'] k) ∧
    handle_gpa ['9', '0', ',', '3', ',', 'x'] 0 6 = some (0, 90) := by
  have hloop : handle_gpa_loop ['9', '0', ',', '3', ',', 'x'] ((6 : Int) - 1).toNat 0
      GpaState.init = some (0, ⟨0, 0, 300, 2, 270⟩) := by decide
  refine ⟨⟨by decide, by decide, by decide⟩, ?_⟩
  rw [handle_gpa_value _ 0 6 0 _ 11796480 17 hloop (by decide) (by decide) (by decide)
    (by decide)]
  norm_num

/-! ## The expression evaluator on requests with a surplus or unknown operator -/

/-- C9: for every message with at least two characters that are neither digits
nor spaces, `handle_msg` never returns 0 (it returns -1 or -4 and leaves
`*result` as it was), and it returns -1 whenever the first such character is
not at index 0, is one of `+ - * /` and decodes to the declared choice. -/
theorem handle_msg_two_operators (msg : List Char) (choice : Int) (r : ℚ)
    (h2 : 2 ≤ msg.countP (fun c => decide (isBoundary c))) :
    (∃ st : Int, handle_msg msg msg.length r choice = some (st, r) ∧ st ≠ 0 ∧
        (st = -1 ∨ st = -4)) ∧
    (∀ (pre rest : List Char) (c : Char), msg = pre ++ c :: rest →
        (∀ d ∈ pre, ¬ isBoundary d) → pre ≠ [] →
        (c = '+' ∨ c = '-' ∨ c = '*' ∨ c = '/') → decode_operation c = choice →
        handle_msg msg msg.length r choice = some (-1, r)) := by
  constructor
  · obtain ⟨pre, c, post, hmsg, hpre, hc, hcnt⟩ :=
      split_at_first (fun c => decide (isBoundary c)) msg (by omega)
    obtain ⟨mid, c2, rest2, hpost, hmid, hc2, -⟩ :=
      split_at_first (fun c => decide (isBoundary c)) post (by omega)
    subst hpost
    subst hmsg
    rw [handle_msg_exact, scanFrom_first _ choice pre _ c (fun d hd => by simpa using hpre d hd)
      (by simpa using hc)]
    split_ifs
    · exact ⟨-1, rfl, by decide, Or.inl rfl⟩
    · exact ⟨-4, rfl, by decide, Or.inr rfl⟩
    · rw [scanFrom_second _ _ mid rest2 c2 _ _ (fun d hd => by simpa using hmid d hd)
        (by simpa using hc2) rfl]
      exact ⟨-1, rfl, by decide, Or.inl rfl⟩
  · intro pre rest c hmsg hpre hne hop hdec
    subst hmsg
    have hc : isBoundary c := operator_isBoundary hop
    have hp0 : pre.countP (fun c => decide (isBoundary c)) = 0 := by
      rw [List.countP_eq_zero]; intro d hd; simpa using hpre d hd
    have hb : 1 ≤ rest.countP (fun c => decide (isBoundary c)) := by
      rw [List.countP_append, hp0, List.countP_cons] at h2
      have : (if decide (isBoundary c) = true then 1 else 0) ≤ 1 := by split_ifs <;> omega
      omega
    obtain ⟨mid, c3, rest3, hrest, hmid, hc3, -⟩ :=
      split_at_first (fun c => decide (isBoundary c)) rest hb
    subst hrest
    rw [handle_msg_exact, scanFrom_first _ choice pre _ c hpre hc]
    have hidx : ¬ ((pre.length : Int) = ((pre ++ c :: (mid ++ c3 :: rest3)).length : Int) - 1
        ∨ pre.length = 0) := by
      have h0 : pre.length ≠ 0 := fun h => hne (List.length_eq_zero.1 h)
      simp only [List.length_append, List.length_cons, Nat.cast_add, Nat.cast_one]
      omega
    have hdec2 : ¬ (decode_operation c = ERR ∨ decode_operation c ≠ choice) := by
      rintro (h | h)
      · rcases hop with rfl | rfl | rfl | rfl <;> exact absurd h (by decide)
      · exact h hdec
    rw [if_neg hidx, if_neg hdec2, scanFrom_second _ _ mid rest3 c3 _ _
      (fun d hd => by simpa using hmid d hd) (by simpa using hc3) rfl]

theorem handle_msg_two_operators_witness :
    (∃ st : Int, handle_msg ['1', '+', '2', '+', '3'] 5 0 ADD = some (st, 0) ∧ st ≠ 0 ∧
        (st = -1 ∨ st = -4)) ∧
    (∀ (pre rest : List Char) (c : Char), ['1', '+', '2', '+', '3'] = pre ++ c :: rest →
        (∀ d ∈ pre, ¬ isBoundary d) → pre ≠ [] →
        (c = '+' ∨ c = '-' ∨ c = '*' ∨ c = '/') → decode_operation c = ADD →
        handle_msg ['1', '+', '2', '+', '3'] 5 0 ADD = some (-1, 0)) :=
  handle_msg_two_operators ['1', '+', '2', '+', '3'] ADD 0 (by decide)

/-- C10, as stated, fails: on `"5 x 3"` with choice `ADD` the function returns
-4, not -1. -/
theorem handle_msg_unknown_operator_counterexample :
    (¬ isDigit 'x' ∧ 'x' ≠ ' ' ∧ decode_operation 'x' = ERR) ∧
    handle_msg ['5', ' ', 'x', ' ', '3'] 5 0 ADD = some (-4, 0) ∧
    handle_msg ['5', ' ', 'x', ' ', '3'] 5 0 ADD ≠ some (-1, 0) := by
  decide

/-- C10, amended: for every text `"<digits> c <digits>"` with non-empty digit
runs, where `c` is not a digit, not a space and not one of `+ - * /`, and for
every choice, `handle_msg` returns -4 and leaves `*result` as it was: an
unrecognised operator character is reported with the same status as a
recognised operator that differs from the declared kind. -/
theorem handle_msg_unknown_operator (A B : List Char) (c : Char) (choice : Int) (r : ℚ)
    (_hA0 : A ≠ []) (_hB0 : B ≠ []) (hA : ∀ d ∈ A, isDigit d) (hB : ∀ d ∈ B, isDigit d)
    (hc : isBoundary c) (hop : ¬ (c = '+' ∨ c = '-' ∨ c = '*' ∨ c = '/')) :
    handle_msg (exprMsg A c B) (exprMsg A c B).length r choice = some (-4, r) := by
  rw [handle_msg_exprMsg choice r A B c hA hB hc]
  have herr : decode_operation c = ERR := by
    simp only [not_or] at hop
    simp [decode_operation, hop.1, hop.2.1, hop.2.2.1, hop.2.2.2]
  exact if_pos (Or.inl herr)

theorem handle_msg_unknown_operator_witness :
    handle_msg ['5', ' ', 'x', ' ', '3'] 5 0 ADD = some (-4, 0) :=
  handle_msg_unknown_operator ['5'] ['3'] 'x' ADD 0 (by decide) (by decide) (by decide)
    (by decide) (by decide) (by decide)

/-! ## The operator decoder -/

/-- C11: `decode_operation` is total and maps `+` to ADD (1), `-` to MINUS (2),
`*` to MUL (3), `/` to DIV (4); it returns ERR (0) exactly on the characters
that are none of `+ - * /`, and the four operator tags are pairwise distinct
and different from ERR. -/
theorem decode_operation_table :
    (decode_operation '+' = ADD ∧ decode_operation '-' = MINUS ∧
      decode_operation '*' = MUL ∧ decode_operation '/' = DIV) ∧
    (ADD = 1 ∧ MINUS = 2 ∧ MUL = 3 ∧ DIV = 4 ∧ ERR = 0) ∧
    (∀ c : Char, decode_operation c = ERR ↔ (c ≠ '+' ∧ c ≠ '-' ∧ c ≠ '*' ∧ c ≠ '/')) ∧
    (∀ c : Char, decode_operation c = ADD ∨ decode_operation c = MINUS ∨
      decode_operation c = MUL ∨ decode_operation c = DIV ∨ decode_operation c = ERR) ∧
    (ADD ≠ MINUS ∧ ADD ≠ MUL ∧ ADD ≠ DIV ∧ MINUS ≠ MUL ∧ MINUS ≠ DIV ∧ MUL ≠ DIV ∧
      ADD ≠ ERR ∧ MINUS ≠ ERR ∧ MUL ≠ ERR ∧ DIV ≠ ERR) := by
  refine ⟨by decide, by decide, ?_, ?_, by decide⟩
  · intro c
    unfold decode_operation
    constructor
    · intro h
      refine ⟨?_, ?_, ?_, ?_⟩ <;> rintro rfl <;> exact absurd h (by decide)
    · rintro ⟨h1, h2, h3, h4⟩
      rw [if_neg h1, if_neg h2, if_neg h3, if_neg h4]
  · intro c
    unfold decode_operation
    split_ifs <;> simp

/-! ## Further lemmas -/

/-- The loop of `handle_msg` returns only with the codes -1 and -4. -/
theorem handle_msg_step_ret (len choice : Int) (i : Nat) (c : Char) (s : ExprState) (code : Int)
    (h : handle_msg_step len choice i c s = .ret code) : code = -1 ∨ code = -4 := by
  unfold handle_msg_step at h
  simp only [] at h
  split_ifs at h <;> first
    | (cases h; exact Or.inl rfl)
    | (cases h; exact Or.inr rfl)

theorem handle_msg_loop_ret (msg : List Char) (len choice : Int) :
    ∀ (n i : Nat) (s : ExprState) (code : Int),
      handle_msg_loop msg len choice n i s = some (.ret code) → code = -1 ∨ code = -4 := by
  intro n
  induction n with
  | zero => intro i s code h; simp [handle_msg_loop] at h
  | succ n ih =>
    intro i s code h
    rw [handle_msg_loop] at h
    cases hget : msg[i]? with
    | none => rw [hget] at h; exact absurd h (by simp)
    | some c =>
      rw [hget] at h
      simp only [] at h
      cases hstep : handle_msg_step len choice i c s with
      | ret code1 =>
        rw [hstep] at h
        simp only [Option.some.injEq, Flow.ret.injEq] at h
        subst h
        exact handle_msg_step_ret _ _ _ _ _ _ hstep
      | next s1 =>
        rw [hstep] at h
        exact ih _ _ _ h

/-- The code after the loop of `handle_msg` either returns 0 or leaves
`*result` as it was, with status -3 or -1. -/
theorem handle_msg_eval_cases (s : ExprState) (r : ℚ) :
    (handle_msg_eval s r).1 = 0 ∨
    (handle_msg_eval s r = (-3, r)) ∨ (handle_msg_eval s r = (-1, r)) := by
  unfold handle_msg_eval
  simp only []
  split_ifs <;> simp

/-- With every read inside the buffer the loop of `handle_gpa` runs to its
end. -/
theorem handle_gpa_loop_total (msg : List Char) :
    ∀ (n i : Nat) (s : GpaState), (n = 0 ∨ i + n < msg.length) →
      ∃ rv s1, handle_gpa_loop msg n i s = some (rv, s1) := by
  intro n
  induction n with
  | zero => intro i s _; exact ⟨0, s, rfl⟩
  | succ n ih =>
    intro i s h
    have hlt : i + (n + 1) < msg.length := by
      rcases h with h | h
      · omega
      · exact h
    obtain ⟨ci, hci⟩ : ∃ ci, msg[i]? = some ci :=
      ⟨msg[i], List.getElem?_eq_getElem (by omega)⟩
    obtain ⟨d, hd⟩ : ∃ d, msg[i + 1]? = some d :=
      ⟨msg[i + 1], List.getElem?_eq_getElem (by omega)⟩
    rw [handle_gpa_loop, hci]
    simp only []
    split_ifs
    · exact ih _ _ (Or.inr (by omega))
    · exact ih _ _ (Or.inr (by omega))
    · exact ih _ _ (Or.inr (by omega))
    · rw [hd]
      simp only []
      split_ifs
      · exact ⟨0, s, rfl⟩
      · exact ⟨-5, s, rfl⟩
    · exact ⟨-5, s, rfl⟩

/-! ## The roster evaluator around the terminator -/

/-- C12: for every prefix `p` of digits, commas and spaces and any two strings
`s1`, `s2`, `handle_gpa` on `p ++ "-1" ++ s1` and on `p ++ "-1" ++ s2`, each
with its exact length (a C `int`), returns status 0 and the same result, the
one fixed by the locals after the scan of `p` alone (the float quotient of
`res` by `commas + 1`): no byte after the terminator is read into the outcome,
and the terminator adds nothing to the weighted sum or to the comma count. -/
theorem handle_gpa_ignores_after_terminator (p s1 s2 : List Char) (r1 r2 : ℚ)
    (hp : ∀ c ∈ p, isBody c)
    (h1 : (p ++ ['-', '1'] ++ s1).length < 2147483648)
    (h2 : (p ++ ['-', '1'] ++ s2).length < 2147483648) :
    ∃ v : ℚ,
      handle_gpa (p ++ ['-', '1'] ++ s1) r1 (p ++ ['-', '1'] ++ s1).length = some (0, v) ∧
      handle_gpa (p ++ ['-', '1'] ++ s2) r2 (p ++ ['-', '1'] ++ s2).length = some (0, v) ∧
      v = floatDiv (intToFloat (gpaFeed GpaState.init p).res)
            (intToFloat ((gpaFeed GpaState.init p).commas + 1)) := by
  have key : ∀ (s : List Char) (r : ℚ), (p ++ ['-', '1'] ++ s).length < 2147483648 →
      handle_gpa (p ++ ['-', '1'] ++ s) r (p ++ ['-', '1'] ++ s).length =
        some (0, floatDiv (intToFloat (gpaFeed GpaState.init p).res)
            (intToFloat ((gpaFeed GpaState.init p).commas + 1))) := by
    intro s r hlen
    have hl : (p ++ ['-', '1'] ++ s).length - 1 = p.length + (s.length + 1) := by
      simp only [List.length_append, List.length_cons, List.length_nil]; omega
    have hm : p ++ ['-', '1'] ++ s = p ++ '-' :: '1' :: s := by simp
    have hloop : handle_gpa_loop (p ++ ['-', '1'] ++ s) ((p ++ ['-', '1'] ++ s).length - 1) 0
        GpaState.init = some (0, gpaFeed GpaState.init p) := by
      rw [hl, hm]; exact handle_gpa_loop_terminated p s s.length hp
    exact (handle_gpa_of_loop_exact _ r 0 _ hlen hloop).2.2
  exact ⟨_, key s1 r1 h1, key s2 r2 h2, rfl⟩

theorem handle_gpa_ignores_after_terminator_witness :
    ∃ v : ℚ,
      handle_gpa (['9', '0', ',', '3', ','] ++ ['-', '1'] ++ ['x', 'y'] ) 1
        (['9', '0', ',', '3', ','] ++ ['-', '1'] ++ ['x', 'y']).length = some (0, v) ∧
      handle_gpa (['9', '0', ',', '3', ','] ++ ['-', '1'] ++ []) 2
        (['9', '0', ',', '3', ','] ++ ['-', '1'] ++ []).length = some (0, v) ∧
      v = floatDiv (intToFloat (gpaFeed GpaState.init ['9', '0', ',', '3', ',']).res)
            (intToFloat ((gpaFeed GpaState.init ['9', '0', ',', '3', ',']).commas + 1)) :=
  handle_gpa_ignores_after_terminator ['9', '0', ',', '3', ','] ['x', 'y'] [] 1 2
    (by decide) (by decide) (by decide)

/-- C13: the code at the failing input.  In `"90,3,-1x"` with length 8 the
marker `-1` at index 5 is followed by `x`, a character other than a space; the
loop breaks at the marker and `handle_gpa` returns 0 with result 270/3 = 90,
not -5. -/
theorem handle_gpa_trailing_garbage_accepted :
    (terminatorAt ['9', '0', ',', '3', ',', '-', '1', 'x'] 5 ∧
      ['9', '0', ',', '3', ',', '-', '1', 'x'][7]? = some 'x' ∧ 'x' ≠ ' ') ∧
    handle_gpa ['9', '0', ',', '3', ',', '-', '1', 'x'] 0 8 = some (0, 90) := by
  have hloop : handle_gpa_loop ['9', '0', ',', '3', ',', '-', '1', 'x'] ((8 : Int) - 1).toNat 0
      GpaState.init = some (0, ⟨0, 0, 300, 2, 270⟩) := by decide
  refine ⟨by decide, ?_⟩
  rw [handle_gpa_value _ 0 8 0 _ 11796480 17 hloop (by decide) (by decide) (by decide)
    (by decide)]
  norm_num

/-- C20: on every buffer passed with its exact length (any length from 0 up,
within a C `int`) `handle_gpa` is total: no read, the lookahead `msg[i+1]`
included, leaves the buffer, and the final divisor `commas + 1` is at least 1;
the function returns the status of its loop and the float quotient of `res`
by `commas + 1`. -/
theorem handle_gpa_total (msg : List Char) (r : ℚ) (hlen : msg.length < 2147483648) :
    ∃ (rv : Int) (s : GpaState),
      handle_gpa_loop msg (msg.length - 1) 0 GpaState.init = some (rv, s) ∧
      1 ≤ s.commas + 1 ∧
      handle_gpa msg r msg.length =
        some (rv, floatDiv (intToFloat s.res) (intToFloat (s.commas + 1))) := by
  obtain ⟨rv, s, hloop⟩ := handle_gpa_loop_total msg (msg.length - 1) 0 GpaState.init
    (by omega)
  obtain ⟨h0, -, hres⟩ := handle_gpa_of_loop_exact msg r rv s hlen hloop
  exact ⟨rv, s, hloop, by omega, hres⟩

theorem handle_gpa_total_witness :
    ∃ (rv : Int) (s : GpaState),
      handle_gpa_loop ['-'] (['-'].length - 1) 0 GpaState.init = some (rv, s) ∧
      1 ≤ s.commas + 1 ∧
      handle_gpa ['-'] 0 (['-'].length) =
        some (rv, floatDiv (intToFloat s.res) (intToFloat (s.commas + 1))) :=
  handle_gpa_total ['-'] 0 (by decide)

/-! ## The expression evaluator: missing operator and the result cell -/

/-- C17: for every message made only of digits and spaces, the empty message
included, and every choice, `handle_msg` returns -1 and leaves `*result` as it
was: `op` is still `ERR` at the `switch`. -/
theorem handle_msg_no_operator (msg : List Char) (choice : Int) (r : ℚ)
    (h : ∀ c ∈ msg, c = ' ' ∨ isDigit c) :
    handle_msg msg msg.length r choice = some (-1, r) ∧
    ∃ s : ExprState, handle_msg_loop msg msg.length choice msg.length 0 ExprState.init
      = some (.next s) ∧ s.op = ERR := by
  have hrun : ∀ c ∈ msg, ¬ isBoundary c := by
    intro c hc hb
    rcases h c hc with h1 | h1
    · exact hb.1 h1
    · exact hb.2 h1
  have hloop := handle_msg_loop_scanFrom (msg.length : Int) choice msg [] ExprState.init
  simp only [List.nil_append, List.length_nil] at hloop
  rw [scanFrom_run _ _ msg hrun] at hloop
  constructor
  · rw [handle_msg_exact, scanFrom_run _ _ msg hrun]
    simp [ExprState.init, handle_msg_eval, ERR, ADD, MINUS, MUL, DIV]
  · exact ⟨_, hloop, by simp [ExprState.init]⟩

theorem handle_msg_no_operator_witness :
    handle_msg ['4', ' ', '2'] (['4', ' ', '2'].length) 9 ADD = some (-1, 9) ∧
    ∃ s : ExprState, handle_msg_loop ['4', ' ', '2'] (['4', ' ', '2'].length) ADD
      ['4', ' ', '2'].length 0 ExprState.init = some (.next s) ∧ s.op = ERR :=
  handle_msg_no_operator ['4', ' ', '2'] ADD 9 (by decide)

/-- C19: for every message, length and choice, `handle_msg` returns one of the
statuses 0, -1, -3, -4, and with a non-zero status the content of `*result` is
the one found on entry; `handle_gpa` overwrites `*result` on every path, so
its final content never depends on the one found on entry, also when -5 is
returned. -/
theorem result_cell_frame (msg : List Char) (len : Int) (choice : Int) (r : ℚ) :
    (∀ (st : Int) (v : ℚ), handle_msg msg len r choice = some (st, v) →
      (st = 0 ∨ st = -1 ∨ st = -3 ∨ st = -4) ∧ (st ≠ 0 → v = r)) ∧
    (∀ r2 : ℚ, handle_gpa msg r len = handle_gpa msg r2 len) ∧
    handle_gpa ['x', '1'] 7 2 = some (-5, 0) := by
  refine ⟨?_, fun r2 => rfl, ?_⟩
  · intro st v h
    unfold handle_msg at h
    cases hloop : handle_msg_loop msg len choice len.toNat 0 ExprState.init with
    | none => rw [hloop] at h; exact absurd h (by simp)
    | some fl =>
      rw [hloop] at h
      cases fl with
      | ret code =>
        simp only [Option.some.injEq, Prod.mk.injEq] at h
        obtain ⟨h1, h2⟩ := h
        subst h1 h2
        rcases handle_msg_loop_ret _ _ _ _ _ _ _ hloop with hc | hc
        · exact ⟨Or.inr (Or.inl hc), fun _ => rfl⟩
        · exact ⟨Or.inr (Or.inr (Or.inr hc)), fun _ => rfl⟩
      | next s =>
        simp only [Option.some.injEq] at h
        rcases handle_msg_eval_cases s r with h0 | h3 | h1
        · rw [h] at h0
          exact ⟨Or.inl h0, fun hne => absurd h0 hne⟩
        · rw [h] at h3
          cases h3
          exact ⟨Or.inr (Or.inr (Or.inl rfl)), fun _ => rfl⟩
        · rw [h] at h1
          cases h1
          exact ⟨Or.inr (Or.inl rfl), fun _ => rfl⟩
  · have hloop : handle_gpa_loop ['x', '1'] ((2 : Int) - 1).toNat 0 GpaState.init
        = some (-5, ⟨0, 0, 0, 0, 0⟩) := by decide
    rw [handle_gpa_of_loop _ 7 2 (-5) _ hloop (by decide)]
    have h0 : intToFloat (GpaState.res ⟨0, 0, 0, 0, 0⟩) = 0 := by decide
    rw [h0, floatDiv_zero]

theorem result_cell_frame_witness :
    ((-3 : Int) = 0 ∨ (-3 : Int) = -1 ∨ (-3 : Int) = -3 ∨ (-3 : Int) = -4) ∧
      ((-3 : Int) ≠ 0 → (7 : ℚ) = 7) :=
  (result_cell_frame ['5', ' ', '/', ' ', '0'] 5 DIV 7).1 (-3) 7 (by decide)

/-! ## Operand accumulation -/

/-- C16, as stated, fails: the digit string `300000000` has a value below
`2^31`, yet on `"300000000 + 1"` with ADD the left accumulator wraps, the left
operand used at evaluation is -129496729 and the stored result is -129496728,
not 300000001. -/
theorem handle_msg_operand_overflow_counterexample :
    (decVal ['3', '0', '0', '0', '0', '0', '0', '0', '0'] = 300000000 ∧
      (300000000 : Int) ≤ 2147483647) ∧
    (∃ s : ExprState,
      handle_msg_loop ['3', '0', '0', '0', '0', '0', '0', '0', '0', ' ', '+', ' ', '1'] 13 ADD
        13 0 ExprState.init = some (.next s) ∧
      Int.tdiv s.x 10 = -129496729) ∧
    handle_msg ['3', '0', '0', '0', '0', '0', '0', '0', '0', ' ', '+', ' ', '1'] 13 0 ADD
      = some (0, -129496728) := by
  refine ⟨by decide, ⟨⟨-1294967296, 10, 1, 1⟩, by decide, by decide⟩, by decide⟩

/-- C16, amended: with 32-bit wraparound arithmetic, for every non-empty digit
string whose decimal value is at most 214748364 (so that ten times the value
still fits in an `int`), standing as left or as right operand of
`"<A> <op> <B>"`, whatever the other operand, the operand `handle_msg` uses at
evaluation time, its accumulator after the final division by 10, equals that
decimal value. -/
theorem handle_msg_operands (A B : List Char) (op : Char) (choice : Int)
    (_hA0 : A ≠ []) (_hB0 : B ≠ []) (hA : ∀ d ∈ A, isDigit d) (hB : ∀ d ∈ B, isDigit d)
    (hop : op = '+' ∨ op = '-' ∨ op = '*' ∨ op = '/') (hch : choice = decode_operation op) :
    ∃ s : ExprState,
      handle_msg_loop (exprMsg A op B) (exprMsg A op B).length choice
        (exprMsg A op B).length 0 ExprState.init = some (.next s) ∧
      (decVal A ≤ 214748364 → Int.tdiv s.x 10 = decVal A) ∧
      (decVal B ≤ 214748364 → Int.tdiv s.y 10 = decVal B) := by
  have hloop := handle_msg_loop_scanFrom ((exprMsg A op B).length : Int) choice
    (exprMsg A op B) [] ExprState.init
  simp only [List.nil_append, List.length_nil] at hloop
  have hscan := scanFrom_single choice (A ++ [' ']) (' ' :: B) op (run_of_digits_space hA)
    (run_of_space_digits hB) (operator_isBoundary hop)
  rw [← exprMsg_split] at hscan
  have h1 : ¬ (A ++ [' '] = [] ∨ ' ' :: B = []) := by simp
  have h2 : ¬ (decode_operation op = ERR ∨ decode_operation op ≠ choice) := by
    rintro (h | h)
    · rcases hop with rfl | rfl | rfl | rfl <;> exact absurd h (by decide)
    · exact h hch.symm
  rw [if_neg h1, if_neg h2] at hscan
  rw [hscan] at hloop
  refine ⟨_, hloop, ?_, ?_⟩
  · intro hAv
    show Int.tdiv (accRun 0 (A ++ [' '])) 10 = decVal A
    rw [accRun_append, accRun_zero_digits A hA hAv]
    show Int.tdiv (10 * (decVal A : Int)) 10 = decVal A
    rw [Int.mul_tdiv_cancel_left _ (by decide)]
  · intro hBv
    show Int.tdiv (accRun 0 (' ' :: B)) 10 = decVal B
    show Int.tdiv (accRun 0 B) 10 = decVal B
    rw [accRun_zero_digits B hB hBv, Int.mul_tdiv_cancel_left _ (by decide)]

theorem handle_msg_operands_witness :
    ∃ s : ExprState,
      handle_msg_loop (exprMsg ['5'] '+' ['3', '0', '0', '0', '0', '0', '0', '0', '0']) (exprMsg ['5'] '+' ['3', '0', '0', '0', '0', '0', '0', '0', '0']).length ADD
        (exprMsg ['5'] '+' ['3', '0', '0', '0', '0', '0', '0', '0', '0']).length 0 ExprState.init = some (.next s) ∧
      (decVal ['5'] ≤ 214748364 → Int.tdiv s.x 10 = decVal ['5']) ∧
      (decVal ['3', '0', '0', '0', '0', '0', '0', '0', '0'] ≤ 214748364 → Int.tdiv s.y 10 = decVal ['3', '0', '0', '0', '0', '0', '0', '0', '0']) :=
  handle_msg_operands ['5'] ['3', '0', '0', '0', '0', '0', '0', '0', '0'] '+' ADD (by decide) (by decide) (by decide) (by decide)
    (Or.inl rfl) (by decide)

/-! ## Spaces -/

/-- A buffer of digits and spaces: the loop ends with `op = ERR` and the
`switch` returns -1. -/
theorem handle_msg_run (msg : List Char) (choice : Int) (r : ℚ)
    (hrun : ∀ c ∈ msg, ¬ isBoundary c) :
    handle_msg msg msg.length r choice = some (-1, r) := by
  rw [handle_msg_exact, scanFrom_run _ _ msg hrun]
  simp [ExprState.init, handle_msg_eval, ERR, ADD, MINUS, MUL, DIV]

theorem accRun_stripSpaces (l : List Char) : ∀ v : Int, accRun v (stripSpaces l) = accRun v l := by
  induction l with
  | nil => intro v; rfl
  | cons c cs ih =>
    intro v
    by_cases hsp : c = ' '
    · have : stripSpaces (c :: cs) = stripSpaces cs := by
        simp [stripSpaces, hsp]
      rw [this, ih]
      simp only [accRun, hsp, if_true]
    · have : stripSpaces (c :: cs) = c :: stripSpaces cs := by
        simp [stripSpaces, hsp]
      rw [this]
      simp only [accRun, hsp, if_false]
      exact ih _

theorem stripSpaces_append (l1 l2 : List Char) :
    stripSpaces (l1 ++ l2) = stripSpaces l1 ++ stripSpaces l2 := by
  simp [stripSpaces]

theorem stripSpaces_boundary (c : Char) (l : List Char) (hc : isBoundary c) :
    stripSpaces (c :: l) = c :: stripSpaces l := by
  simp [stripSpaces, hc.1]

theorem mem_stripSpaces {c : Char} {l : List Char} (h : c ∈ stripSpaces l) : c ∈ l := by
  unfold stripSpaces at h
  exact (List.mem_filter.1 h).1

/-- After the first operator (`a = 1`) the rest of the scan does not depend on
the index or on `len`, and skips spaces. -/
theorem scanFrom_stripSpaces (len len2 choice : Int) (l : List Char) :
    ∀ (i i2 : Nat) (s : ExprState), s.a = 1 →
      scanFrom len choice i l s = scanFrom len2 choice i2 (stripSpaces l) s := by
  induction l with
  | nil => intro i i2 s _; rfl
  | cons c cs ih =>
    intro i i2 s ha
    have ha0 : ¬ (s.a = 0) := by omega
    by_cases hsp : c = ' '
    · have e : stripSpaces (c :: cs) = stripSpaces cs := by simp [stripSpaces, hsp]
      rw [e, scanFrom]
      have hstep : handle_msg_step len choice i c s = .next s := by
        simp [handle_msg_step, hsp]
      rw [hstep]
      exact ih (i + 1) i2 s ha
    · have e : stripSpaces (c :: cs) = c :: stripSpaces cs := by simp [stripSpaces, hsp]
      rw [e, scanFrom, scanFrom]
      by_cases hd : isDigit c
      · have hstep : ∀ (L : Int) (j : Nat),
            handle_msg_step L choice j c s = .next { s with y := pushDigit s.y c } := by
          intro L j
          simp only [handle_msg_step, hsp, hd, ha0, if_false, if_true]
        rw [hstep, hstep]
        exact ih (i + 1) (i2 + 1) _ ha
      · have hstep : ∀ (L : Int) (j : Nat), handle_msg_step L choice j c s = .ret (-1) := by
          intro L j
          have h2 : (1 + 1) % 256 > 1 := by decide
          rw [handle_msg_step_boundary _ _ _ _ _ ⟨hsp, hd⟩]
          simp only [ha, h2, if_true]
        rw [hstep, hstep]

/-! ## When the expression evaluator succeeds -/

theorem digitsOf_isDigit (l : List Char) : ∀ c ∈ digitsOf l, isDigit c := by
  intro c hc
  unfold digitsOf at hc
  simpa using (List.mem_filter.1 hc).2

theorem accRun_digitsOf (l : List Char) (hl : ∀ c ∈ l, ¬ isBoundary c) :
    ∀ v : Int, accRun v (digitsOf l) = accRun v l := by
  induction l with
  | nil => intro v; rfl
  | cons c cs ih =>
    intro v
    have hcs : ∀ d ∈ cs, ¬ isBoundary d := fun d hd => hl d (List.mem_cons_of_mem _ hd)
    by_cases hsp : c = ' '
    · have hnd : ¬ isDigit c := by rw [hsp]; decide
      have e : digitsOf (c :: cs) = digitsOf cs := by simp [digitsOf, hnd]
      rw [e, ih hcs]
      simp only [accRun, hsp, if_true]
    · have hd : isDigit c := by
        by_contra hnd; exact hl c (List.mem_cons_self _ _) ⟨hsp, hnd⟩
      have e : digitsOf (c :: cs) = c :: digitsOf cs := by simp [digitsOf, hd]
      rw [e]
      simp only [accRun, hsp, if_false]
      exact ih hcs _

/-- Without overflow, the right accumulator of a run holds ten times the
value of its digits. -/
theorem accRun_operandValue (l : List Char) (hl : ∀ c ∈ l, ¬ isBoundary c)
    (hfit : operandValue l ≤ 214748364) : accRun 0 l = 10 * (operandValue l : Int) := by
  rw [← accRun_digitsOf l hl, accRun_zero_digits _ (digitsOf_isDigit l) hfit]
  rfl

theorem decode_operation_cases (c : Char) (h : decode_operation c ≠ ERR) :
    decode_operation c = ADD ∨ decode_operation c = MINUS ∨ decode_operation c = MUL ∨
      decode_operation c = DIV := by
  unfold decode_operation at h ⊢
  split_ifs at h ⊢ <;> simp at h ⊢

/-- The status of the `switch` for a state whose tag is an operator. -/
theorem handle_msg_eval_status (s : ExprState) (r : ℚ)
    (hop : s.op = ADD ∨ s.op = MINUS ∨ s.op = MUL ∨ s.op = DIV) :
    ((handle_msg_eval s r).1 = 0 ↔ ¬ (s.op = DIV ∧ Int.tdiv s.y 10 = 0)) := by
  unfold handle_msg_eval
  simp only []
  rcases hop with h | h | h | h
  · rw [if_pos h]
    have : ¬ (s.op = DIV) := by rw [h]; decide
    simp [this]
  · have h1 : ¬ (s.op = ADD) := by rw [h]; decide
    rw [if_neg h1, if_pos h]
    have : ¬ (s.op = DIV) := by rw [h]; decide
    simp [this]
  · have h1 : ¬ (s.op = ADD) := by rw [h]; decide
    have h2 : ¬ (s.op = MINUS) := by rw [h]; decide
    rw [if_neg h1, if_neg h2, if_pos h]
    have : ¬ (s.op = DIV) := by rw [h]; decide
    simp [this]
  · have h1 : ¬ (s.op = ADD) := by rw [h]; decide
    have h2 : ¬ (s.op = MINUS) := by rw [h]; decide
    have h3 : ¬ (s.op = MUL) := by rw [h]; decide
    rw [if_neg h1, if_neg h2, if_neg h3, if_pos h]
    by_cases hy : Int.tdiv s.y 10 = 0
    · rw [if_pos hy]; simp [h, hy]
    · rw [if_neg hy]; simp [hy]

/-- Success of `handle_msg` on a buffer with exactly one boundary character. -/
theorem handle_msg_single_success (choice : Int) (r : ℚ) (pre post : List Char) (c : Char)
    (hpre : ∀ d ∈ pre, ¬ isBoundary d) (hpost : ∀ d ∈ post, ¬ isBoundary d)
    (hc : isBoundary c) (hfit : operandValue post ≤ 214748364) :
    (∃ v, handle_msg (pre ++ c :: post) (pre ++ c :: post).length r choice = some (0, v)) ↔
      (pre ≠ [] ∧ post ≠ [] ∧ decode_operation c = choice ∧ decode_operation c ≠ ERR ∧
        ¬ (choice = DIV ∧ operandValue post = 0)) := by
  rw [handle_msg_single choice r pre post c hpre hpost hc]
  by_cases hpos : pre = [] ∨ post = []
  · rw [if_pos hpos]
    constructor
    · rintro ⟨v, hv⟩
      simp only [Option.some.injEq, Prod.mk.injEq] at hv
      exact absurd hv.1 (by decide)
    · rintro ⟨h1, h2, -⟩
      rcases hpos with h | h
      · exact absurd h h1
      · exact absurd h h2
  · rw [if_neg hpos]
    by_cases hdec : decode_operation c = ERR ∨ decode_operation c ≠ choice
    · rw [if_pos hdec]
      constructor
      · rintro ⟨v, hv⟩
        simp only [Option.some.injEq, Prod.mk.injEq] at hv
        exact absurd hv.1 (by decide)
      · rintro ⟨-, -, h3, h4, -⟩
        rcases hdec with h | h
        · exact absurd h h4
        · exact absurd h3 h
    · rw [if_neg hdec]
      have hne : decode_operation c ≠ ERR := fun h => hdec (Or.inl h)
      have heq : decode_operation c = choice := by
        by_contra h; exact hdec (Or.inr h)
      subst heq
      have hy : Int.tdiv (accRun 0 post) 10 = (operandValue post : Int) := by
        rw [accRun_operandValue post hpost hfit, Int.mul_tdiv_cancel_left _ (by decide)]
      have hst := handle_msg_eval_status ⟨accRun 0 pre, accRun 0 post, decode_operation c, 1⟩ r
        (decode_operation_cases c hne)
      simp only [hy] at hst
      have hzero : ((operandValue post : Int) = 0) ↔ operandValue post = 0 := by
        exact_mod_cast Iff.rfl
      constructor
      · rintro ⟨v, hv⟩
        simp only [Option.some.injEq] at hv
        have h0 : (handle_msg_eval ⟨accRun 0 pre, accRun 0 post, decode_operation c, 1⟩ r).1
            = 0 := by rw [hv]
        refine ⟨fun h => hpos (Or.inl h), fun h => hpos (Or.inr h), rfl, hne, ?_⟩
        rintro ⟨hd, hv0⟩
        exact (hst.1 h0) ⟨hd, hzero.2 hv0⟩
      · rintro ⟨-, -, -, -, h5⟩
        have h0 := hst.2 (fun ⟨hd, hv0⟩ => h5 ⟨hd, hzero.1 hv0⟩)
        exact ⟨(handle_msg_eval ⟨accRun 0 pre, accRun 0 post, decode_operation c, 1⟩ r).2,
          congrArg some (Prod.ext h0 rfl)⟩

/-- With two boundary characters or more `handle_msg` does not return 0. -/
theorem handle_msg_many_ne_zero (msg : List Char) (choice : Int) (r : ℚ)
    (h2 : 2 ≤ msg.countP (fun c => decide (isBoundary c))) :
    ¬ ∃ v, handle_msg msg msg.length r choice = some (0, v) := by
  obtain ⟨pre, c, post, hmsg, hpre, hc, hcnt⟩ :=
    split_at_first (fun c => decide (isBoundary c)) msg (by omega)
  obtain ⟨mid, c2, rest2, hpost, hmid, hc2, -⟩ :=
    split_at_first (fun c => decide (isBoundary c)) post (by omega)
  subst hpost
  subst hmsg
  rintro ⟨v, hv⟩
  rw [handle_msg_exact, scanFrom_first _ choice pre _ c (fun d hd => by simpa using hpre d hd)
    (by simpa using hc)] at hv
  split_ifs at hv
  · simp only [Option.some.injEq, Prod.mk.injEq] at hv
    exact absurd hv.1 (by decide)
  · simp only [Option.some.injEq, Prod.mk.injEq] at hv
    exact absurd hv.1 (by decide)
  · rw [scanFrom_second _ _ mid rest2 c2 _ _ (fun d hd => by simpa using hmid d hd)
      (by simpa using hc2) rfl] at hv
    simp only [Option.some.injEq, Prod.mk.injEq] at hv
    exact absurd hv.1 (by decide)

/-- In a buffer `pre ++ c :: post` whose only boundary character is `c`, a
boundary character read at index `k` is `c` at index `pre.length`. -/
theorem boundary_index_unique (pre post : List Char) (c : Char)
    (hpre : ∀ d ∈ pre, ¬ isBoundary d) (hpost : ∀ d ∈ post, ¬ isBoundary d)
    (k : Nat) (c1 : Char) (hk : (pre ++ c :: post)[k]? = some c1) (hb : isBoundary c1) :
    k = pre.length ∧ c1 = c := by
  rcases Nat.lt_trichotomy k pre.length with h | h | h
  · rw [List.getElem?_append_left h] at hk
    exact absurd hb (hpre c1 (List.getElem?_mem hk))
  · subst h
    rw [List.getElem?_append_right (le_refl _)] at hk
    simp at hk
    exact ⟨rfl, hk.symm⟩
  · rw [List.getElem?_append_right (by omega)] at hk
    obtain ⟨j, hj⟩ : ∃ j, k - pre.length = j + 1 := ⟨k - pre.length - 1, by omega⟩
    rw [hj] at hk
    simp at hk
    exact absurd hb (hpost c1 (List.getElem?_mem hk))

/-- C18: when the right operand does not overflow the accumulator (its digits
have a value of at most 214748364), `handle_msg` on a message with its exact
length returns 0 if and only if exactly one character is neither a space nor a
digit, its index `k` satisfies `0 < k < len-1`, it decodes to `choice` and not
to `ERR`, and it is not the case that `choice` is `DIV` and the digits after
index `k` have value zero.  In particular 0 is never returned for a `choice`
outside ADD, MINUS, MUL, DIV. -/
theorem handle_msg_success_iff (msg : List Char) (choice : Int) (r : ℚ)
    (hfit : ∀ (k : Nat) (c : Char), msg.countP (fun c => decide (isBoundary c)) = 1 →
      msg[k]? = some c → isBoundary c → operandValue (msg.drop (k + 1)) ≤ 214748364) :
    ((∃ v, handle_msg msg msg.length r choice = some (0, v)) ↔
      (msg.countP (fun c => decide (isBoundary c)) = 1 ∧
        ∃ (k : Nat) (c : Char), msg[k]? = some c ∧ isBoundary c ∧
          0 < k ∧ (k : Int) < (msg.length : Int) - 1 ∧
          decode_operation c = choice ∧ decode_operation c ≠ ERR ∧
          ¬ (choice = DIV ∧ operandValue (msg.drop (k + 1)) = 0))) ∧
    ((choice ≠ ADD ∧ choice ≠ MINUS ∧ choice ≠ MUL ∧ choice ≠ DIV) →
      ¬ ∃ v, handle_msg msg msg.length r choice = some (0, v)) := by
  have main : (∃ v, handle_msg msg msg.length r choice = some (0, v)) ↔
      (msg.countP (fun c => decide (isBoundary c)) = 1 ∧
        ∃ (k : Nat) (c : Char), msg[k]? = some c ∧ isBoundary c ∧
          0 < k ∧ (k : Int) < (msg.length : Int) - 1 ∧
          decode_operation c = choice ∧ decode_operation c ≠ ERR ∧
          ¬ (choice = DIV ∧ operandValue (msg.drop (k + 1)) = 0)) := by
    rcases Nat.lt_trichotomy (msg.countP (fun c => decide (isBoundary c))) 1 with h | h | h
    · have h0 : msg.countP (fun c => decide (isBoundary c)) = 0 := by omega
      have hrun : ∀ c ∈ msg, ¬ isBoundary c := by
        rw [List.countP_eq_zero] at h0
        exact fun c hc => by simpa using h0 c hc
      constructor
      · rintro ⟨v, hv⟩
        rw [handle_msg_run msg choice r hrun] at hv
        simp only [Option.some.injEq, Prod.mk.injEq] at hv
        exact absurd hv.1 (by decide)
      · rintro ⟨h1, -⟩
        omega
    · obtain ⟨pre, c, post, hmsg, hpre, hc, hcnt⟩ :=
        split_at_first (fun c => decide (isBoundary c)) msg (by omega)
      have hpre1 : ∀ d ∈ pre, ¬ isBoundary d := fun d hd => by simpa using hpre d hd
      have hc1 : isBoundary c := by simpa using hc
      have hpost1 : ∀ d ∈ post, ¬ isBoundary d := by
        have h0 : post.countP (fun c => decide (isBoundary c)) = 0 := by omega
        rw [List.countP_eq_zero] at h0
        exact fun d hd => by simpa using h0 d hd
      have hget : msg[pre.length]? = some c := by
        rw [hmsg, List.getElem?_append_right (le_refl _)]; simp
      have hdrop : msg.drop (pre.length + 1) = post := by
        rw [hmsg]; simp
      have hfit1 : operandValue post ≤ 214748364 := by
        have := hfit pre.length c h hget hc1
        rwa [hdrop] at this
      have hlen : msg.length = pre.length + (post.length + 1) := by
        rw [hmsg]; simp
      have hsingle := handle_msg_single_success choice r pre post c hpre1 hpost1 hc1 hfit1
      rw [← hmsg] at hsingle
      rw [hsingle]
      constructor
      · rintro ⟨h1, h2, h3, h4, h5⟩
        refine ⟨h, pre.length, c, hget, hc1, ?_, ?_, h3, h4, ?_⟩
        · exact Nat.pos_of_ne_zero (fun h0 => h1 (List.length_eq_zero.1 h0))
        · have : post.length ≠ 0 := fun h0 => h2 (List.length_eq_zero.1 h0)
          rw [hlen]; push_cast; omega
        · rw [hdrop]; exact h5
      · rintro ⟨-, k, c1, hk, hb, hk0, hk1, h3, h4, h5⟩
        have hk' : (pre ++ c :: post)[k]? = some c1 := by rw [← hmsg]; exact hk
        obtain ⟨hkeq, hceq⟩ := boundary_index_unique pre post c hpre1 hpost1 k c1 hk' hb
        subst hkeq
        subst hceq
        rw [hdrop] at h5
        refine ⟨?_, ?_, h3, h4, h5⟩
        · intro h0; rw [h0] at hk0; exact absurd hk0 (by decide)
        · intro h0; rw [hlen, h0] at hk1; simp at hk1
    · constructor
      · intro hv
        exact absurd hv (handle_msg_many_ne_zero msg choice r (by omega))
      · rintro ⟨h1, -⟩
        omega
  refine ⟨main, ?_⟩
  rintro ⟨h1, h2, h3, h4⟩ hv
  obtain ⟨-, k, c, -, -, -, -, hdec, hne, -⟩ := main.1 hv
  rcases decode_operation_cases c hne with h | h | h | h
  · exact h1 (by rw [← hdec, h])
  · exact h2 (by rw [← hdec, h])
  · exact h3 (by rw [← hdec, h])
  · exact h4 (by rw [← hdec, h])

theorem handle_msg_success_iff_witness :
    ((∃ v, handle_msg ['8', ' ', '/', ' ', '2'] (['8', ' ', '/', ' ', '2'].length) 0 DIV
        = some (0, v)) ↔
      ((['8', ' ', '/', ' ', '2'].countP (fun c => decide (isBoundary c)) = 1) ∧
        ∃ (k : Nat) (c : Char), ['8', ' ', '/', ' ', '2'][k]? = some c ∧ isBoundary c ∧
          0 < k ∧ (k : Int) < ((['8', ' ', '/', ' ', '2'].length : Nat) : Int) - 1 ∧
          decode_operation c = DIV ∧ decode_operation c ≠ ERR ∧
          ¬ (DIV = DIV ∧ operandValue (['8', ' ', '/', ' ', '2'].drop (k + 1)) = 0))) ∧
    ((DIV ≠ ADD ∧ DIV ≠ MINUS ∧ DIV ≠ MUL ∧ DIV ≠ DIV) →
      ¬ ∃ v, handle_msg ['8', ' ', '/', ' ', '2'] (['8', ' ', '/', ' ', '2'].length) 0 DIV
        = some (0, v)) :=
  handle_msg_success_iff ['8', ' ', '/', ' ', '2'] DIV 0 (by
    intro k c _ hk _
    have hk5 : k < 5 := by
      by_contra hge
      rw [List.getElem?_eq_none (by simpa using hge)] at hk
      exact absurd hk (by simp)
    interval_cases k <;> decide)

/-! ## Spaces and the position of the first operator -/

/-- The split of a buffer at its first boundary character is unique. -/
theorem first_boundary_unique (pre : List Char) :
    ∀ (pre2 post post2 : List Char) (c c2 : Char),
      pre ++ c :: post = pre2 ++ c2 :: post2 →
      (∀ d ∈ pre, ¬ isBoundary d) → (∀ d ∈ pre2, ¬ isBoundary d) →
      isBoundary c → isBoundary c2 → pre2 = pre ∧ c2 = c ∧ post2 = post := by
  induction pre with
  | nil =>
    intro pre2 post post2 c c2 h _ hpre2 hc _
    cases pre2 with
    | nil =>
      simp only [List.nil_append, List.cons.injEq] at h
      exact ⟨rfl, h.1.symm, h.2.symm⟩
    | cons a t =>
      simp only [List.nil_append, List.cons_append, List.cons.injEq] at h
      exact absurd (h.1 ▸ hc) (hpre2 a (List.mem_cons_self _ _))
  | cons a t ih =>
    intro pre2 post post2 c c2 h hpre hpre2 hc hc2
    cases pre2 with
    | nil =>
      simp only [List.nil_append, List.cons_append, List.cons.injEq] at h
      exact absurd (h.1 ▸ hc2) (hpre a (List.mem_cons_self _ _))
    | cons a2 t2 =>
      simp only [List.cons_append, List.cons.injEq] at h
      obtain ⟨e1, e2, e3⟩ := ih t2 post post2 c c2 h.2
        (fun d hd => hpre d (List.mem_cons_of_mem _ hd))
        (fun d hd => hpre2 d (List.mem_cons_of_mem _ hd)) hc hc2
      exact ⟨by rw [e1, h.1], e2, e3⟩

/-- With an operator tag the `switch` returns 0 or -3, never -1. -/
theorem handle_msg_eval_operator (s : ExprState) (r : ℚ)
    (hop : s.op = ADD ∨ s.op = MINUS ∨ s.op = MUL ∨ s.op = DIV) :
    (handle_msg_eval s r).1 = 0 ∨ (handle_msg_eval s r).1 = -3 := by
  by_cases h : (handle_msg_eval s r).1 = 0
  · exact Or.inl h
  · right
    have hst := (handle_msg_eval_status s r hop).not.1 h
    simp only [not_not] at hst
    unfold handle_msg_eval
    simp only []
    have h1 : ¬ (s.op = ADD) := by rw [hst.1]; decide
    have h2 : ¬ (s.op = MINUS) := by rw [hst.1]; decide
    have h3 : ¬ (s.op = MUL) := by rw [hst.1]; decide
    rw [if_neg h1, if_neg h2, if_neg h3, if_pos hst.1, if_pos hst.2]

/-- The outcome on a buffer and on the same buffer without its spaces, split
at the first boundary character: they differ exactly when that character is
an inner character of the buffer with only spaces on one side, and either it
does not decode to `choice` or no other boundary character follows. -/
theorem handle_msg_stripSpaces_split (pre post : List Char) (c : Char) (choice : Int) (r : ℚ)
    (hpre : ∀ d ∈ pre, ¬ isBoundary d) (hc : isBoundary c) :
    (handle_msg (pre ++ c :: post) (pre ++ c :: post).length r choice =
      handle_msg (stripSpaces (pre ++ c :: post)) (stripSpaces (pre ++ c :: post)).length r
        choice) ↔
    ¬ (pre ≠ [] ∧ post ≠ [] ∧ (stripSpaces pre = [] ∨ stripSpaces post = []) ∧
        (decode_operation c = ERR ∨ decode_operation c ≠ choice ∨
          ∀ d ∈ post, ¬ isBoundary d)) := by
  have hpre2 : ∀ d ∈ stripSpaces pre, ¬ isBoundary d :=
    fun d hd => hpre d (mem_stripSpaces hd)
  have hstrip : stripSpaces (pre ++ c :: post) = stripSpaces pre ++ c :: stripSpaces post := by
    rw [stripSpaces_append, stripSpaces_boundary c post hc]
  have hidx : ∀ (p q : List Char),
      ((p.length : Int) = ((p ++ c :: q).length : Int) - 1 ∨ p.length = 0) ↔
        (p = [] ∨ q = []) := by
    intro p q
    simp only [List.length_append, List.length_cons, Nat.cast_add, Nat.cast_one,
      List.length_eq_zero]
    constructor
    · rintro (h | h)
      · right; apply List.length_eq_zero.1; omega
      · left; exact h
    · rintro (h | h)
      · right; exact h
      · left; subst h; simp
  rw [handle_msg_exact, handle_msg_exact, hstrip,
    scanFrom_first _ choice pre post c hpre hc,
    scanFrom_first _ choice (stripSpaces pre) (stripSpaces post) c hpre2 hc]
  by_cases hP : pre = [] ∨ post = []
  · have hP2 : stripSpaces pre = [] ∨ stripSpaces post = [] := by
      rcases hP with h | h
      · left; rw [h]; rfl
      · right; rw [h]; rfl
    rw [if_pos ((hidx pre post).2 hP), if_pos ((hidx _ _).2 hP2)]
    constructor
    · rintro - ⟨h1, h2, -⟩
      rcases hP with h | h
      · exact h1 h
      · exact h2 h
    · intro _; rfl
  · have hpne : pre ≠ [] := fun h => hP (Or.inl h)
    have hqne : post ≠ [] := fun h => hP (Or.inr h)
    rw [if_neg (fun h => hP ((hidx pre post).1 h))]
    by_cases hP2 : stripSpaces pre = [] ∨ stripSpaces post = []
    · rw [if_pos ((hidx _ _).2 hP2)]
      by_cases hD : decode_operation c = ERR ∨ decode_operation c ≠ choice
      · rw [if_pos hD]
        constructor
        · intro h
          simp only [Option.some.injEq, Prod.mk.injEq] at h
          exact absurd h.1 (by decide)
        · intro h
          exact absurd ⟨hpne, hqne, hP2, by
            rcases hD with h1 | h1
            · exact Or.inl h1
            · exact Or.inr (Or.inl h1)⟩ h
      · rw [if_neg hD]
        have hne : decode_operation c ≠ ERR := fun h => hD (Or.inl h)
        have heq : ¬ decode_operation c ≠ choice := fun h => hD (Or.inr h)
        by_cases hrun : ∀ d ∈ post, ¬ isBoundary d
        · rw [scanFrom_run _ _ post hrun]
          have h1 : ¬ ((1 : Nat) = 0) := by decide
          simp only [h1, if_false]
          constructor
          · intro h
            simp only [Option.some.injEq] at h
            have hst := handle_msg_eval_operator
              ⟨accRun 0 pre, accRun 0 post, decode_operation c, 1⟩ r
              (decode_operation_cases c hne)
            rw [h] at hst
            rcases hst with h0 | h0 <;> simp at h0
          · intro h
            exact absurd ⟨hpne, hqne, hP2, Or.inr (Or.inr hrun)⟩ h
        · have hcnt : 1 ≤ post.countP (fun c => decide (isBoundary c)) := by
            by_contra h0
            have h0' : post.countP (fun c => decide (isBoundary c)) = 0 := by omega
            rw [List.countP_eq_zero] at h0'
            exact hrun (fun d hd => by simpa using h0' d hd)
          obtain ⟨mid, c2, rest, hpost, hmid, hc2, -⟩ :=
            split_at_first (fun c => decide (isBoundary c)) post hcnt
          rw [hpost, scanFrom_second _ _ mid rest c2 _ _ (fun d hd => by simpa using hmid d hd)
            (by simpa using hc2) rfl]
          constructor
          · rintro - ⟨-, -, -, h4⟩
            rcases h4 with h4 | h4 | h4
            · exact hne h4
            · exact heq h4
            · exact hrun (hpost ▸ h4)
          · intro _; rfl
    · rw [if_neg (fun h => hP2 ((hidx _ _).1 h))]
      constructor
      · rintro - ⟨-, -, h3, -⟩
        exact hP2 h3
      · intro _
        by_cases hD : decode_operation c = ERR ∨ decode_operation c ≠ choice
        · rw [if_pos hD, if_pos hD]
        · rw [if_neg hD, if_neg hD, accRun_stripSpaces,
            scanFrom_stripSpaces _ (((stripSpaces pre) ++ c :: stripSpaces post).length : Int)
              choice post _ ((stripSpaces pre).length + 1) _ rfl]

/-- C15, as stated, fails: removing the space of `" +5"` gives `"+5"`; with
choice ADD the first returns 0 and stores 5, the second returns -1. -/
theorem handle_msg_strip_spaces_counterexample :
    stripSpaces [' ', '+', '5'] = ['+', '5'] ∧
    handle_msg [' ', '+', '5'] 3 0 ADD = some (0, 5) ∧
    handle_msg ['+', '5'] 2 0 ADD = some (-1, 0) := by
  decide

/-- C15, amended: for every message and every choice, `handle_msg` returns the
same status and the same result on the message and on the message with all
spaces removed (each with its exact length), except exactly in one case: the
first character `c` that is neither a digit nor a space is neither the first
nor the last character of the buffer, everything before it or everything
after it is spaces, and `c` does not decode to `choice` or no further
character of that kind follows it. -/
theorem handle_msg_strip_spaces (msg : List Char) (choice : Int) (r : ℚ) :
    (handle_msg msg msg.length r choice =
      handle_msg (stripSpaces msg) (stripSpaces msg).length r choice) ↔
    ¬ ∃ (pre post : List Char) (c : Char),
        msg = pre ++ c :: post ∧ (∀ d ∈ pre, ¬ isBoundary d) ∧ isBoundary c ∧
        pre ≠ [] ∧ post ≠ [] ∧ (stripSpaces pre = [] ∨ stripSpaces post = []) ∧
        (decode_operation c = ERR ∨ decode_operation c ≠ choice ∨
          ∀ d ∈ post, ¬ isBoundary d) := by
  by_cases hcnt : 1 ≤ msg.countP (fun c => decide (isBoundary c))
  · obtain ⟨pre, c, post, hmsg, hpre, hc, -⟩ :=
      split_at_first (fun c => decide (isBoundary c)) msg hcnt
    have hpre1 : ∀ d ∈ pre, ¬ isBoundary d := fun d hd => by simpa using hpre d hd
    have hc1 : isBoundary c := by simpa using hc
    subst hmsg
    rw [handle_msg_stripSpaces_split pre post c choice r hpre1 hc1]
    constructor
    · rintro h ⟨pre2, post2, c2, hm, hp2, hc2, hbad⟩
      obtain ⟨e1, e2, e3⟩ := first_boundary_unique pre pre2 post post2 c c2 hm hpre1 hp2 hc1 hc2
      subst e1 e2 e3
      exact h hbad
    · intro h hbad
      exact h ⟨pre, post, c, rfl, hpre1, hc1, hbad⟩
  · have h0 : msg.countP (fun c => decide (isBoundary c)) = 0 := by omega
    rw [List.countP_eq_zero] at h0
    have hrun : ∀ c ∈ msg, ¬ isBoundary c := fun c hc => by simpa using h0 c hc
    constructor
    · rintro - ⟨pre, post, c, hm, -, hc, -⟩
      exact hrun c (by rw [hm]; simp) hc
    · intro _
      rw [handle_msg_run msg choice r hrun,
        handle_msg_run _ choice r (fun c hc => hrun c (mem_stripSpaces hc))]

theorem handle_msg_strip_spaces_witness :
    handle_msg [' ', '1', '2', ' ', '+', ' ', '7', ' ']
        ([' ', '1', '2', ' ', '+', ' ', '7', ' '].length) 0 ADD =
      handle_msg (stripSpaces [' ', '1', '2', ' ', '+', ' ', '7', ' '])
        (stripSpaces [' ', '1', '2', ' ', '+', ' ', '7', ' ']).length 0 ADD := by
  apply (handle_msg_strip_spaces [' ', '1', '2', ' ', '+', ' ', '7', ' '] ADD 0).2
  rintro ⟨pre, post, c, hm, hp, hc, -, -, hs, -⟩
  have hm2 : [' ', '1', '2', ' '] ++ '+' :: [' ', '7', ' '] = pre ++ c :: post := by
    rw [← hm]; rfl
  obtain ⟨e1, -, e3⟩ := first_boundary_unique [' ', '1', '2', ' '] pre [' ', '7', ' '] post
    '+' c hm2 (by decide) hp (by decide) hc
  subst e1 e3
  exact absurd hs (by decide)

end MessageHandler
